import Mathlib

/-!
# Verification of the envfill template engine

A shallow embedding, over `List Char` strings, of the core of the `envfill`
CLI: the `.env.template` parser (`parse`), the writer (`escapeValue`,
`generate`), the merger (`mergeTemplates`), the semantic validator
(`validate`), the value resolver (`resolve`, `interpolate`, `generateSecret`,
`expandCharset`, `parseOptions`), the transform engine (`applyTransforms`)
and the prompter's conditional logic (`evaluateCondition`,
`promptForVariables`).

JavaScript strings are modelled as `List Char`; JavaScript `Map`s as
insertion-ordered association lists with overwrite-in-place `set`; sparse
arrays (which the merger can produce) as `List (Option _)`; fallible
functions as `Except`.  External effects (shell execution, random bytes,
interactive prompts) are passed in as explicit oracle parameters.
-/

set_option maxRecDepth 10000

namespace Envfill

/-- JavaScript strings, modelled at the character-list level. -/
abbrev Str := List Char

/-- The dollar character. -/
def dollarC : Char := '$'

/-- The double-quote character. -/
def dquoteC : Char := '"'

/-- The single-quote character. -/
def squoteC : Char := Char.ofNat 39

/-- The backtick character. -/
def btickC : Char := Char.ofNat 96

/-- The backslash character. -/
def bslashC : Char := '\\'

/-- The opening curly brace character. -/
def lbraceC : Char := Char.ofNat 123

/-- The closing curly brace character. -/
def rbraceC : Char := Char.ofNat 125

/-- The newline character. -/
def nlC : Char := '\n'

/-- Characters treated as whitespace by JavaScript's `String.prototype.trim`
(restricted to the code points that can actually appear in the inputs we
model: ASCII whitespace and NBSP). -/
def isJsSpace (c : Char) : Bool :=
  c.val = 32 || c.val = 9 || c.val = 10 || c.val = 11 || c.val = 12 ||
    c.val = 13 || c.val = 160

/-- `s.trim()`. -/
def jsTrim (s : Str) : Str :=
  ((s.dropWhile isJsSpace).reverse.dropWhile isJsSpace).reverse

/-- `s.split(sep)` for a single-character separator: JavaScript semantics,
so `"".split(c) = [""]` and empty fields are kept. -/
def splitOnChar (sep : Char) : Str → List Str
  | [] => [[]]
  | c :: r =>
    if c = sep then [] :: splitOnChar sep r
    else
      match splitOnChar sep r with
      | [] => [[c]]
      | g :: gs => (c :: g) :: gs

/-- `parts.join(sep)` for a single-character separator. -/
def joinChar (sep : Char) (parts : List Str) : Str :=
  List.intercalate [sep] parts

/-- JavaScript `Map<string, β>`: an insertion-ordered association list whose
keys are unique by construction of `mapSet`. -/
abbrev JsMap (β : Type) := List (Str × β)

/-- `m.get(k)` (`none` plays the role of `undefined`). -/
def mapGet {β : Type} (m : JsMap β) (k : Str) : Option β :=
  match m with
  | [] => none
  | (k', v) :: rest => if k' = k then some v else mapGet rest k

/-- `m.has(k)`. -/
def mapHas {β : Type} (m : JsMap β) (k : Str) : Bool :=
  (mapGet m k).isSome

/-- `m.set(k, v)`: overwrite in place if the key is present, else append. -/
def mapSet {β : Type} (m : JsMap β) (k : Str) (v : β) : JsMap β :=
  match m with
  | [] => [(k, v)]
  | (k', v') :: rest =>
    if k' = k then (k', v) :: rest else (k', v') :: mapSet rest k v

/-- `m.get(k) ?? d`. -/
def mapGetD {β : Type} (m : JsMap β) (k : Str) (d : β) : β :=
  (mapGet m k).getD d

/-- `s.replaceAll(c, repl)` where the search pattern is a single character
(used for the writer's escaping chain). -/
def jsReplaceAllChar (c : Char) (repl : Str) : Str → Str
  | [] => []
  | x :: r => (if x = c then repl else [x]) ++ jsReplaceAllChar c repl r

/- ------------------------------------------------------------------
src/writer.ts
------------------------------------------------------------------ -/

/-- The quoting condition of `escapeValue` in `src/writer.ts`: the value
contains a newline, a double quote, a single quote, a space, `#` or `$`. -/
def escTrigger (value : Str) : Bool :=
  value.contains nlC || value.contains dquoteC || value.contains squoteC
    || value.contains ' ' || value.contains '#' || value.contains dollarC

/-- `escapeValue` from `src/writer.ts`: leave the value bare unless it
contains a quoting trigger; otherwise wrap it in double quotes,
backslash-escaping `\`, `"` and `$` (three chained global replaces, in that
order). -/
def escapeValue (value : Str) : Str :=
  if value = [] then []
  else if escTrigger value then
    let escaped :=
      jsReplaceAllChar dollarC [bslashC, dollarC]
        (jsReplaceAllChar dquoteC [bslashC, dquoteC]
          (jsReplaceAllChar bslashC [bslashC, bslashC] value))
    dquoteC :: escaped ++ [dquoteC]
  else value

/-- Spec-side single-character escaping: `\`, `"` and `$` get a backslash,
all other characters are untouched. -/
def escCh (c : Char) : Str :=
  if c = bslashC || c = dquoteC || c = dollarC then [bslashC, c] else [c]

theorem jsReplaceAllChar_append (c : Char) (repl a b : Str) :
    jsReplaceAllChar c repl (a ++ b) =
      jsReplaceAllChar c repl a ++ jsReplaceAllChar c repl b := by
  induction a with
  | nil => rfl
  | cons x r ih => simp [jsReplaceAllChar, ih]

theorem escape_chain_eq_flatMap (value : Str) :
    jsReplaceAllChar dollarC [bslashC, dollarC]
      (jsReplaceAllChar dquoteC [bslashC, dquoteC]
        (jsReplaceAllChar bslashC [bslashC, bslashC] value)) =
    value.flatMap escCh := by
  induction value with
  | nil => rfl
  | cons c r ih =>
    have step :
        jsReplaceAllChar dollarC [bslashC, dollarC]
            (jsReplaceAllChar dquoteC [bslashC, dquoteC]
              (jsReplaceAllChar bslashC [bslashC, bslashC] (c :: r))) =
          jsReplaceAllChar dollarC [bslashC, dollarC]
              (jsReplaceAllChar dquoteC [bslashC, dquoteC]
                (jsReplaceAllChar bslashC [bslashC, bslashC] [c]))
            ++
            jsReplaceAllChar dollarC [bslashC, dollarC]
              (jsReplaceAllChar dquoteC [bslashC, dquoteC]
                (jsReplaceAllChar bslashC [bslashC, bslashC] r)) := by
      have h1 : (c :: r) = [c] ++ r := rfl
      rw [h1, jsReplaceAllChar_append, jsReplaceAllChar_append,
        jsReplaceAllChar_append]
    rw [step, ih, List.flatMap_cons]
    congr 1
    by_cases h1 : c = bslashC
    · subst h1; decide
    · by_cases h2 : c = dquoteC
      · subst h2; decide
      · by_cases h3 : c = dollarC
        · subst h3; decide
        · simp [jsReplaceAllChar, escCh, h1, h2, h3]

/-- The concrete value `say "hi"`. -/
def sayHiVal : Str := ['s', 'a', 'y', ' ', dquoteC, 'h', 'i', dquoteC]

/-- Its claimed serialization `"say \"hi\""`. -/
def sayHiExpected : Str :=
  [dquoteC, 's', 'a', 'y', ' ', bslashC, dquoteC, 'h', 'i', bslashC, dquoteC,
    dquoteC]

/-- C9: `escapeValue` returns the value bare unless it contains a space,
`#`, a quote character, `$`, or a newline, in which case it wraps the value
in double quotes with `\`, `"` and `$` backslash-escaped; in particular
`say "hi"` serializes as `"say \"hi\""` and a trigger-free value is
returned unchanged. -/
theorem escapeValue_spec (value : Str) :
    (escTrigger value = false → escapeValue value = value) ∧
    (escTrigger value = true →
      escapeValue value = dquoteC :: value.flatMap escCh ++ [dquoteC]) ∧
    escapeValue sayHiVal = sayHiExpected := by
  refine ⟨fun h => ?_, fun h => ?_, by decide⟩
  · unfold escapeValue
    by_cases he : value = ([] : Str)
    · simp [he]
    · simp [he, h]
  · have hne : value ≠ ([] : Str) := by
      intro he; subst he; exact absurd h (by decide)
    unfold escapeValue
    rw [if_neg hne, if_pos h]
    simp [escape_chain_eq_flatMap]

/-- Witness for `escapeValue_spec`: both hypotheses are dischargeable at
concrete inputs. -/
theorem escapeValue_spec_witness :
    escapeValue ['a', 'b'] = ['a', 'b'] ∧
    escapeValue sayHiVal = dquoteC :: sayHiVal.flatMap escCh ++ [dquoteC] := by
  exact ⟨(escapeValue_spec ['a', 'b']).1 (by decide),
    (escapeValue_spec sayHiVal).2.1 (by decide)⟩

/- ------------------------------------------------------------------
src/types.ts — the data model
------------------------------------------------------------------ -/

/-- `DirectiveType` from `src/types.ts`. -/
inductive DirectiveType
  | required | url | email | port | number | boolean
deriving DecidableEq

/-- `DefaultValue` from `src/types.ts` (the four-armed tagged union;
`secret`'s optional charset and `options`' optional default choice are
`Option`s). -/
inductive DefaultValue
  | shell (command : Str)
  | static (value : Str)
  | secret (length : Nat) (charset : Option Str)
  | options (choices : List Str) (defaultChoice : Option Str)
deriving DecidableEq

/-- `ConditionDirective` from `src/types.ts` (`variable` is a Lean keyword,
so the field is called `var`). -/
structure ConditionDirective where
  var : Str
deriving DecidableEq

/-- `RegexDirective` from `src/types.ts`. -/
structure RegexDirective where
  pattern : Str
  flags : Str
  errorMessage : Option Str := none
deriving DecidableEq

/-- `Transform` from `src/types.ts`. -/
inductive Transform
  | lowercase | uppercase | slugify
  | replace (pattern : Str) (replacement : Str) (flags : Str)
  | trim (chars : Str)
deriving DecidableEq

/-- `EnvVariable` from `src/types.ts` (the unused `integer` directive field
is omitted: the block-AST parser never sets it). -/
structure EnvVariable where
  name : Str
  lineNumber : Nat
  description : Option Str := none
  default : Option DefaultValue := none
  directives : List DirectiveType := []
  condition : Option ConditionDirective := none
  regex : Option RegexDirective := none
  transforms : Option (List Transform) := none
  sectionName : Option Str := none
deriving DecidableEq

/-- `TemplateNode` from `src/types.ts` (`section` and `variable` are Lean
keywords, so those constructors are called `sect` and `var`). -/
inductive TemplateNode
  | whitespace (count : Nat)
  | sect (name : Str) (line : Str)
  | var (lines : List Str) (v : EnvVariable)
  | content (lines : List Str)
deriving DecidableEq

/-- `ParsedTemplate` from `src/types.ts`. -/
structure ParsedTemplate where
  nodes : List TemplateNode
deriving DecidableEq

/-- `ResolveResult` from `src/types.ts`. -/
structure ResolveResult where
  value : Str
  error : Option Str := none
deriving DecidableEq

/- ------------------------------------------------------------------
src/resolver.ts — charset expansion, secret generation, resolve
------------------------------------------------------------------ -/

/-- The `alnum` preset of `CHARSET_PRESETS`. -/
def alnumPreset : Str :=
  ("ABCDEFGHIJKLMNOPQRSTUVWXYZabcdefghijklmnopqrstuvwxyz0123456789").data

/-- The `alpha` preset. -/
def alphaPreset : Str :=
  ("ABCDEFGHIJKLMNOPQRSTUVWXYZabcdefghijklmnopqrstuvwxyz").data

/-- The `lower` preset. -/
def lowerPreset : Str := ("abcdefghijklmnopqrstuvwxyz").data

/-- The `upper` preset. -/
def upperPreset : Str := ("ABCDEFGHIJKLMNOPQRSTUVWXYZ").data

/-- The `num` preset. -/
def numPreset : Str := ("0123456789").data

/-- The `hex` preset. -/
def hexPreset : Str := ("0123456789abcdef").data

/-- The `HEX` preset. -/
def hexUpperPreset : Str := ("0123456789ABCDEF").data

/-- The `special` preset. -/
def specialPreset : Str := ('!' :: '@' :: '#' :: dollarC :: '%' :: Char.ofNat 94
  :: '&' :: '*' :: '(' :: ')' :: '-' :: '_' :: '=' :: '+' :: [])

/-- `CHARSET_PRESETS[name]`, modelled as own-property lookup on the object
literal (JavaScript prototype-chain lookups for keys such as `toString` are
not modelled). -/
def presetOf (name : Str) : Option Str :=
  if name = ("alnum").data then some alnumPreset
  else if name = ("alpha").data then some alphaPreset
  else if name = ("lower").data then some lowerPreset
  else if name = ("upper").data then some upperPreset
  else if name = ("num").data then some numPreset
  else if name = ("hex").data then some hexPreset
  else if name = ("HEX").data then some hexUpperPreset
  else if name = ("special").data then some specialPreset
  else none

/-- `[...new Set(s)]`: deduplicate, keeping the first occurrence of each
character (JavaScript `Set` iterates in insertion order). -/
def dedupFirst (seen : Str) : Str → Str
  | [] => []
  | c :: r =>
    if seen.contains c then dedupFirst seen r
    else c :: dedupFirst (c :: seen) r

/-- The preset-concatenation loop of `expandCharset`: look each part up,
throwing `Unknown charset preset` at the first unknown one. -/
def expandParts : List Str → Except Str Str
  | [] => .ok []
  | p :: ps =>
    match presetOf p with
    | none => .error (("Unknown charset preset: ").data ++ p)
    | some pre => (expandParts ps).map (fun rest => pre ++ rest)

/-- `expandCharset` from `src/resolver.ts`: a missing or empty spec expands
to `alnum`; otherwise split on `+`, look each part up among the presets,
concatenate and deduplicate. -/
def expandCharset (charsetStr : Option Str) : Except Str Str :=
  match charsetStr with
  | none => .ok alnumPreset
  | some s =>
    if s = [] then .ok alnumPreset
    else (expandParts (splitOnChar '+' s)).map (dedupFirst [])

/-- `generateSecret` from `src/resolver.ts`, with the `randomBytes(length)`
result passed in explicitly as `bytes`.  The `.getD` default is unreachable:
whenever `expandCharset` succeeds its charset is nonempty, so the modulo
index is in range. -/
def generateSecret (length : Nat) (charset : Option Str) (bytes : List Nat) :
    Except Str Str :=
  (expandCharset charset).map fun chars =>
    (List.range length).flatMap fun i =>
      match bytes.get? i with
      | none => []
      | some b => [chars.getD (b % chars.length) '?']

/-- `resolve` from `src/resolver.ts`, with shell execution passed in as an
oracle (`shellFn` models `executeShellCommand`, which never throws) and the
random bytes for secret generation passed in as `bytes`. -/
def resolve (shellFn : Str → ResolveResult) (bytes : List Nat) :
    Option DefaultValue → Except Str ResolveResult
  | none => .ok ⟨[], none⟩
  | some (.static v) => .ok ⟨v, none⟩
  | some (.shell cmd) => .ok (shellFn cmd)
  | some (.secret len charset) =>
    (generateSecret len charset bytes).map fun s => ⟨s, none⟩
  | some (.options choices dc) =>
    .ok ⟨dc.getD (choices.head?.getD []), none⟩

/- ------------------------------------------------------------------
src/parser.ts — parseOptions
------------------------------------------------------------------ -/

/-- One step of the `parseOptions` loop: a part starting with `*` is pushed
with the `*` stripped and becomes the (overwritten) default choice. -/
def parseOptionsStep (acc : List Str × Option Str) (part : Str) :
    List Str × Option Str :=
  match part with
  | '*' :: choice => (acc.1 ++ [choice], some choice)
  | _ => (acc.1 ++ [part], acc.2)

/-- `parseOptions` from `src/parser.ts`: split on `|`, trim each part, strip
a leading `*` to mark the default choice. -/
def parseOptions (optionsStr : Str) : List Str × Option Str :=
  ((splitOnChar '|' optionsStr).map jsTrim).foldl parseOptionsStep ([], none)

/-- Claim-side: strip one leading `*`. -/
def stripStar (p : Str) : Str :=
  match p with
  | '*' :: c => c
  | _ => p

/-- Claim-side: is the part `*`-marked? -/
def isStarred (p : Str) : Bool :=
  match p with
  | '*' :: _ => true
  | _ => false

/-- Claim-side: the last `*`-marked part, with the `*` stripped. -/
def lastStarStrip : List Str → Option Str
  | [] => none
  | p :: rest =>
    match lastStarStrip rest with
    | some d => some d
    | none => if isStarred p then some (stripStar p) else none

theorem parseOptions_foldl (parts : List Str) (cs : List Str) (d : Option Str) :
    parts.foldl parseOptionsStep (cs, d) =
      (cs ++ parts.map stripStar,
        match lastStarStrip parts with
        | some x => some x
        | none => d) := by
  induction parts generalizing cs d with
  | nil => simp [lastStarStrip]
  | cons p rest ih =>
    match p with
    | '*' :: c =>
      rw [List.foldl_cons]
      show List.foldl parseOptionsStep (cs ++ [c], some c) rest = _
      rw [ih]
      simp only [List.map_cons, stripStar, lastStarStrip, isStarred]
      cases lastStarStrip rest <;> simp
    | [] =>
      rw [List.foldl_cons]
      show List.foldl parseOptionsStep (cs ++ [[]], d) rest = _
      rw [ih]
      simp only [List.map_cons, stripStar, lastStarStrip, isStarred]
      cases lastStarStrip rest <;> simp
    | c :: cr =>
      by_cases hS : c = '*'
      · subst hS
        rw [List.foldl_cons]
        show List.foldl parseOptionsStep (cs ++ [cr], some cr) rest = _
        rw [ih]
        simp only [List.map_cons, stripStar, lastStarStrip, isStarred]
        cases lastStarStrip rest <;> simp
      · rw [List.foldl_cons]
        have hstep : parseOptionsStep (cs, d) (c :: cr) = (cs ++ [c :: cr], d) := by
          unfold parseOptionsStep
          match c, hS with
          | c, hS =>
            cases c
            simp only []
            split
            · rename_i heq
              injection heq with h1 h2
              exact absurd (by rw [h1]) hS
            · rfl
        rw [hstep, ih]
        have hmap : stripStar (c :: cr) = c :: cr := by
          unfold stripStar
          split
          · rename_i heq
            injection heq with h1 h2
            exact absurd (by rw [h1]) hS
          · rfl
        have hstar : isStarred (c :: cr) = false := by
          unfold isStarred
          split
          · rename_i heq
            injection heq with h1 h2
            exact absurd (by rw [h1]) hS
          · rfl
        simp only [List.map_cons, hmap, lastStarStrip, hstar]
        cases lastStarStrip rest <;> simp

/-- C6: parsing an options expression splits on `|`, trims each choice,
strips a leading `*` (the last `*`-marked choice becoming the default), and
resolving an options default yields the marked default choice if any, else
the first choice, else the empty string. -/
theorem parseOptions_resolve_spec (s : Str) :
    ((parseOptions s).1 = ((splitOnChar '|' s).map jsTrim).map stripStar ∧
      (parseOptions s).2 = lastStarStrip ((splitOnChar '|' s).map jsTrim)) ∧
    ∀ (choices : List Str) (dc : Option Str) (shellFn : Str → ResolveResult)
      (bytes : List Nat),
      resolve shellFn bytes (some (.options choices dc)) =
        .ok ⟨match dc with
             | some d => d
             | none =>
               match choices with
               | c :: _ => c
               | [] => [], none⟩ := by
  constructor
  · unfold parseOptions
    rw [parseOptions_foldl]
    constructor
    · simp
    · cases lastStarStrip ((splitOnChar '|' s).map jsTrim) <;> simp
  · intro choices dc shellFn bytes
    unfold resolve
    cases dc with
    | some d => rfl
    | none => cases choices <;> rfl

/-- Witness for `parseOptions_resolve_spec` (its inner statement has
universally quantified hypotheses only, but we also record a concrete
evaluation: `<dev|staging|*prod>`-style input). -/
theorem parseOptions_resolve_spec_witness :
    parseOptions (("dev| staging |*prod").data) =
      ((("dev").data :: ("staging").data :: ("prod").data :: []),
        some (("prod").data)) := by
  decide

/- ------------------------------------------------------------------
C7 — generateSecret and charset expansion
------------------------------------------------------------------ -/

/-- The eight preset names. -/
def presetNames : List Str :=
  [("alnum").data, ("alpha").data, ("lower").data, ("upper").data,
    ("num").data, ("hex").data, ("HEX").data, ("special").data]

/-- Claim-side first-occurrence deduplication: keep each character's first
occurrence, filtering later duplicates out. -/
def firstOccDedup : Str → Str
  | [] => []
  | c :: r => c :: firstOccDedup (r.filter (fun x => x ≠ c))
termination_by l => l.length
decreasing_by
  simp only [List.length_cons, Nat.lt_succ_iff]
  exact List.length_filter_le _ _

/-- The first part of a charset spec naming no preset. -/
def firstUnknown : List Str → Option Str
  | [] => none
  | p :: ps => if (presetOf p).isSome then firstUnknown ps else some p

theorem splitOnChar_ne_nil (sep : Char) (s : Str) : splitOnChar sep s ≠ [] := by
  cases s with
  | nil => simp [splitOnChar]
  | cons c r =>
    unfold splitOnChar
    by_cases h : c = sep
    · simp [h]
    · simp only [h, if_false]
      cases splitOnChar sep r <;> simp

theorem presetOf_ne_nil (p : Str) (l : Str) (h : presetOf p = some l) :
    l ≠ [] := by
  unfold presetOf at h
  repeat' split at h
  any_goals exact Option.noConfusion h
  all_goals (injection h with h; subst h; decide)

theorem presetOf_isSome_iff (p : Str) :
    (presetOf p).isSome = true ↔ p ∈ presetNames := by
  unfold presetOf presetNames
  repeat' split
  all_goals simp_all

theorem expandParts_ok (ps : List Str) (l : Str) (h : expandParts ps = .ok l) :
    l = ps.flatMap (fun p => (presetOf p).getD []) ∧
      ∀ p ∈ ps, (presetOf p).isSome := by
  induction ps generalizing l with
  | nil =>
    simp only [expandParts] at h
    injection h with h
    subst h
    simp
  | cons p ps ih =>
    unfold expandParts at h
    cases hp : presetOf p with
    | none => rw [hp] at h; cases h
    | some pre =>
      rw [hp] at h
      cases hrest : expandParts ps with
      | error e => rw [hrest] at h; cases h
      | ok rest =>
        rw [hrest] at h
        injection h with h
        subst h
        obtain ⟨h1, h2⟩ := ih rest hrest
        refine ⟨?_, ?_⟩
        · rw [h1]; simp [hp]
        · intro q hq
          rcases List.mem_cons.mp hq with hq | hq
          · subst hq; simp [hp]
          · exact h2 q hq

theorem expandParts_all_known (ps : List Str)
    (h : ∀ p ∈ ps, (presetOf p).isSome) :
    expandParts ps = .ok (ps.flatMap (fun p => (presetOf p).getD [])) := by
  induction ps with
  | nil => rfl
  | cons p ps ih =>
    have hp : (presetOf p).isSome := h p (by simp)
    obtain ⟨pre, hpre⟩ := Option.isSome_iff_exists.mp hp
    unfold expandParts
    rw [hpre, ih (fun q hq => h q (by simp [hq]))]
    simp [hpre, Except.map]

theorem expandParts_firstUnknown (ps : List Str) (p : Str)
    (h : firstUnknown ps = some p) :
    expandParts ps = .error (("Unknown charset preset: ").data ++ p) := by
  induction ps with
  | nil => cases h
  | cons q ps ih =>
    unfold firstUnknown at h
    unfold expandParts
    by_cases hq : (presetOf q).isSome
    · rw [if_pos hq] at h
      obtain ⟨pre, hpre⟩ := Option.isSome_iff_exists.mp hq
      rw [hpre, ih h]
      rfl
    · rw [if_neg hq] at h
      injection h with h
      subst h
      rw [Option.not_isSome_iff_eq_none.mp hq]

theorem dedupFirst_cons (seen : Str) (c : Char) (r : Str) :
    dedupFirst seen (c :: r) =
      if seen.contains c then dedupFirst seen r
      else c :: dedupFirst (c :: seen) r := rfl

theorem firstOccDedup_cons (c : Char) (r : Str) :
    firstOccDedup (c :: r) = c :: firstOccDedup (r.filter (fun x => x ≠ c)) := by
  rw [firstOccDedup]

theorem firstOccDedup_nil : firstOccDedup [] = [] := by
  rw [firstOccDedup]

theorem dedupFirst_eq_firstOccDedup (l : Str) (seen : Str) :
    dedupFirst seen l = firstOccDedup (l.filter (fun c => !(seen.contains c))) := by
  induction l generalizing seen with
  | nil => simp [dedupFirst, firstOccDedup_nil]
  | cons c r ih =>
    by_cases hc : seen.contains c
    · rw [dedupFirst_cons, if_pos hc, List.filter_cons_of_neg (by simpa using hc)]
      exact ih seen
    · rw [dedupFirst_cons, if_neg (by simpa using hc),
        List.filter_cons_of_pos (by simpa using hc), firstOccDedup_cons,
        ih (c :: seen)]
      congr 1
      rw [List.filter_filter]
      congr 1
      apply List.filter_congr
      intro x _
      by_cases hx : x = c
      · subst hx
        simp [List.contains_cons]
      · simp only [List.contains_cons]
        have hbeq : (x == c) = false := by simp [hx]
        simp [hbeq, hx]

theorem firstOccDedup_cons_ne_nil (c : Char) (r : Str) :
    firstOccDedup (c :: r) ≠ [] := by
  unfold firstOccDedup; simp

theorem expandCharset_pos (spec : Option Str) (chars : Str)
    (h : expandCharset spec = .ok chars) : 0 < chars.length := by
  match spec with
  | none =>
    simp only [expandCharset] at h
    injection h with h
    subst h
    decide
  | some s =>
    simp only [expandCharset] at h
    by_cases hs : s = ([] : Str)
    · rw [if_pos hs] at h
      injection h with h
      subst h
      decide
    · rw [if_neg hs] at h
      cases hexp : expandParts (splitOnChar '+' s) with
      | error e =>
        rw [hexp] at h
        simp only [Except.map] at h
        exact Except.noConfusion h
      | ok l =>
        rw [hexp] at h
        simp only [Except.map] at h
        injection h with h
        subst h
        obtain ⟨hl, hall⟩ := expandParts_ok _ _ hexp
        cases hsplit : splitOnChar '+' s with
        | nil => exact absurd hsplit (splitOnChar_ne_nil _ _)
        | cons p ps =>
          have hp : (presetOf p).isSome := by
            apply hall; rw [hsplit]; simp
          obtain ⟨pre, hpre⟩ := Option.isSome_iff_exists.mp hp
          have hprne : pre ≠ [] := presetOf_ne_nil p pre hpre
          have hlne : l ≠ [] := by
            rw [hl, hsplit]
            simp only [List.flatMap_cons, hpre, Option.getD_some]
            cases pre with
            | nil => exact absurd rfl hprne
            | cons a b => simp
          rw [dedupFirst_eq_firstOccDedup]
          have : l.filter (fun c => !(List.contains [] c)) = l := by
            simp [List.contains]
          rw [this]
          cases l with
          | nil => exact absurd rfl hlne
          | cons a b => unfold firstOccDedup; simp

theorem flatMap_singleton_eq_map {α β : Type} (l : List α) (f : α → List β)
    (g : α → β) (h : ∀ a ∈ l, f a = [g a]) : l.flatMap f = l.map g := by
  induction l with
  | nil => rfl
  | cons a r ih =>
    rw [List.flatMap_cons, List.map_cons, h a (by simp),
      ih (fun b hb => h b (by simp [hb]))]
    rfl

/-- C7: with the random byte source modelled as an explicit byte list of the
requested length, `generateSecret` returns exactly `length` characters, the
`i`-th being `charset[bytes[i] % charset.length]` of the expanded charset;
charset expansion splits on `+`, accepts exactly the eight presets,
concatenates them in order, deduplicates keeping first occurrences, defaults
a missing or empty spec to `alnum`, and errors on the first unknown preset
name. -/
theorem generateSecret_spec :
    (∀ (len : Nat) (spec : Option Str) (bytes : List Nat) (chars : Str),
      expandCharset spec = .ok chars → bytes.length = len →
      ∃ out, generateSecret len spec bytes = .ok out ∧ out.length = len ∧
        ∀ i b, bytes.get? i = some b →
          out.get? i = chars.get? (b % chars.length)) ∧
    expandCharset none = .ok alnumPreset ∧
    expandCharset (some []) = .ok alnumPreset ∧
    (∀ p, (presetOf p).isSome = true ↔ p ∈ presetNames) ∧
    (∀ s, s ≠ [] → (∀ p ∈ splitOnChar '+' s, (presetOf p).isSome) →
      expandCharset (some s) =
        .ok (firstOccDedup
          ((splitOnChar '+' s).flatMap (fun p => (presetOf p).getD [])))) ∧
    (∀ s p, s ≠ [] → firstUnknown (splitOnChar '+' s) = some p →
      expandCharset (some s) =
        .error (("Unknown charset preset: ").data ++ p)) := by
  refine ⟨?_, rfl, rfl, presetOf_isSome_iff, ?_, ?_⟩
  · intro len spec bytes chars hexp hlen
    have hpos : 0 < chars.length := expandCharset_pos spec chars hexp
    refine ⟨(List.range len).map
      (fun i => ((chars.get? ((bytes.getD i 0) % chars.length)).getD '?')),
      ?_, ?_, ?_⟩
    · unfold generateSecret
      rw [hexp]
      simp only [Except.map]
      congr 1
      apply flatMap_singleton_eq_map
      intro i hi
      have hi' : i < bytes.length := by
        rw [hlen]; exact List.mem_range.mp hi
      have hb : bytes.get? i = some (bytes.getD i 0) := by
        rw [List.getD_eq_getD_get?]
        cases hg : bytes.get? i with
        | none => exact absurd (List.get?_eq_none.mp hg) (by omega)
        | some b => rfl
      rw [hb]
      rfl
    · simp
    · intro i b hib
      have hi' : i < bytes.length := by
        by_contra hcon
        rw [List.get?_eq_none.mpr (by omega)] at hib
        cases hib
      have hgd : bytes.getD i 0 = b := by
        rw [List.getD_eq_getD_get?, hib]
        rfl
      rw [List.get?_map, List.get?_range (by omega : i < len)]
      have hmod : b % chars.length < chars.length := Nat.mod_lt _ hpos
      cases hc : chars.get? (b % chars.length) with
      | none => exact absurd (List.get?_eq_none.mp hc) (by omega)
      | some c =>
        have hib' : bytes[i]? = some b := by
          rw [← List.get?_eq_getElem?]; exact hib
        have hc' : chars[b % chars.length]? = some c := by
          rw [← List.get?_eq_getElem?]; exact hc
        simp [hc, hib', hc', hgd]
  · intro s hs hall
    have hred : expandCharset (some s) =
        (if s = [] then Except.ok alnumPreset
          else Except.map (dedupFirst []) (expandParts (splitOnChar '+' s))) := rfl
    rw [hred, if_neg hs, expandParts_all_known _ hall]
    simp only [Except.map]
    rw [dedupFirst_eq_firstOccDedup]
    congr 1
    simp [List.contains]
  · intro s p hs hfu
    have hred : expandCharset (some s) =
        (if s = [] then Except.ok alnumPreset
          else Except.map (dedupFirst []) (expandParts (splitOnChar '+' s))) := rfl
    rw [hred, if_neg hs, expandParts_firstUnknown _ _ hfu]
    rfl

/-- Witness for `generateSecret_spec`: a concrete three-byte secret over
`hex+num` (which deduplicates to the sixteen hex digits). -/
theorem generateSecret_spec_witness :
    ∃ out, generateSecret 3 (some (("hex+num").data)) [0, 17, 300] = .ok out ∧
      out.length = 3 ∧
      ∀ i b, ([0, 17, 300] : List Nat).get? i = some b →
        out.get? i = hexPreset.get? (b % hexPreset.length) := by
  exact generateSecret_spec.1 3 (some (("hex+num").data)) [0, 17, 300]
    hexPreset (by rfl) (by decide)

/- ------------------------------------------------------------------
src/resolver.ts — the ${VAR} interpolation scanner
------------------------------------------------------------------ -/

/-- First character of a `[A-Z_][A-Z0-9_]*` variable name. -/
def isNameStart (c : Char) : Bool :=
  ('A' ≤ c && c ≤ 'Z') || c = '_'

/-- Subsequent character of a variable name. -/
def isNameChar (c : Char) : Bool :=
  isNameStart c || ('0' ≤ c && c ≤ '9')

/-- Try to match `INTERPOLATION_PATTERN` (i.e. a reference of shape
`${NAME}`) at the start of `s`; on success return the full matched text,
the name, and the remaining input. -/
def tryRef (s : Str) : Option (Str × Str × Str) :=
  match s with
  | d :: b :: c0 :: t1 =>
    if d = dollarC && b = lbraceC && isNameStart c0 then
      match t1.dropWhile isNameChar with
      | rb :: rest2 =>
        if rb = rbraceC then
          some (d :: b :: ((c0 :: t1.takeWhile isNameChar) ++ [rb]),
            c0 :: t1.takeWhile isNameChar, rest2)
        else none
      | [] => none
    else none
  | _ => none

theorem length_dropWhile_le' (p : Char → Bool) (l : Str) :
    (l.dropWhile p).length ≤ l.length := by
  induction l with
  | nil => simp
  | cons c r ih =>
    by_cases h : p c <;> simp [List.dropWhile_cons, h] <;> omega

theorem tryRef_length (s f n r : Str) (h : tryRef s = some (f, n, r)) :
    r.length < s.length := by
  cases s with
  | nil => exact absurd h (by simp [tryRef])
  | cons d s1 =>
  cases s1 with
  | nil => exact absurd h (by simp [tryRef])
  | cons b s2 =>
  cases s2 with
  | nil => exact absurd h (by simp [tryRef])
  | cons c0 t1 =>
  have hred : tryRef (d :: b :: c0 :: t1) =
      (if d = dollarC && b = lbraceC && isNameStart c0 then
        match t1.dropWhile isNameChar with
        | rb :: rest2 =>
          if rb = rbraceC then
            some (d :: b :: ((c0 :: t1.takeWhile isNameChar) ++ [rb]),
              c0 :: t1.takeWhile isNameChar, rest2)
          else none
        | [] => none
      else none) := rfl
  rw [hred] at h
  by_cases hcond : (d = dollarC && b = lbraceC && isNameStart c0) = true
  · rw [if_pos hcond] at h
    cases hdw : t1.dropWhile isNameChar with
    | nil => rw [hdw] at h; cases h
    | cons rb rest2 =>
      rw [hdw] at h
      have h2 : (if rb = rbraceC then
          some (d :: b :: ((c0 :: t1.takeWhile isNameChar) ++ [rb]),
            c0 :: t1.takeWhile isNameChar, rest2)
        else none) = some (f, n, r) := h
      by_cases hrb : rb = rbraceC
      · rw [if_pos hrb] at h2
        have hr : r = rest2 := by
          injection h2 with h2
          injection h2 with h1 h2
          injection h2 with h3 h4
          exact h4.symm
        subst hr
        have hle : (t1.dropWhile isNameChar).length ≤ t1.length :=
          length_dropWhile_le' _ _
        rw [hdw] at hle
        simp only [List.length_cons] at hle ⊢
        omega
      · rw [if_neg hrb] at h2; cases h2
  · rw [if_neg hcond] at h; cases h

/-- The global scan of `INTERPOLATION_PATTERN.exec` over a string: the list
of `(matchedText, name)` pairs, left to right, non-overlapping. -/
def findRefs : Str → List (Str × Str)
  | [] => []
  | c :: rest =>
    match h : tryRef (c :: rest) with
    | some (full, nm, rest2) => (full, nm) :: findRefs rest2
    | none => findRefs rest
termination_by s => s.length
decreasing_by
  · exact tryRef_length _ _ _ _ h
  · simp

/- ------------------------------------------------------------------
src/parser.ts — getVariables; src/template-validator.ts — validate
------------------------------------------------------------------ -/

/-- `getVariables` from `src/parser.ts`: the variable nodes' variables, in
node order. -/
def getVariables (t : ParsedTemplate) : List EnvVariable :=
  t.nodes.filterMap fun n =>
    match n with
    | .var _ v => some v
    | _ => none

/-- `extractInterpolationRefs` from `src/template-validator.ts`. -/
def extractInterpolationRefs (v : EnvVariable) : List Str :=
  match v.default with
  | some (.static val) => (findRefs val).map (fun m => m.2)
  | _ => []

/-- The serialized name of a directive. -/
def directiveName : DirectiveType → Str
  | .required => ("required").data
  | .url => ("url").data
  | .email => ("email").data
  | .port => ("port").data
  | .number => ("number").data
  | .boolean => ("boolean").data

/-- `Line ${n}: ${name} - ${tail}`. -/
def lineMsg (v : EnvVariable) (tail : Str) : Str :=
  ("Line ").data ++ Nat.toDigits 10 v.lineNumber ++ (": ").data ++ v.name ++
    (" - ").data ++ tail

/-- The validator's "must be defined before this variable" message. -/
def condMsgUndefined (v : EnvVariable) (cv : Str) : Str :=
  lineMsg v (("condition variable ").data ++ [squoteC] ++ cv ++ [squoteC] ++
    (" must be defined before this variable").data)

/-- The validator's "should have <boolean> directive" message. -/
def condMsgNotBool (v : EnvVariable) (cv : Str) : Str :=
  lineMsg v (("condition variable ").data ++ [squoteC] ++ cv ++ [squoteC] ++
    (" should have <boolean> directive").data)

/-- The boolean-combination check. -/
def checkBooleanCombined (v : EnvVariable) : List Str :=
  if DirectiveType.boolean ∈ v.directives ∧ 1 < v.directives.length then
    [lineMsg v (("boolean directive cannot be combined with other directives").data)]
  else []

/-- The url/email check. -/
def checkUrlEmail (v : EnvVariable) : List Str :=
  if DirectiveType.url ∈ v.directives ∧ DirectiveType.email ∈ v.directives then
    [lineMsg v (("url and email directives cannot be combined").data)]
  else []

/-- The port/number check. -/
def checkPortNumber (v : EnvVariable) : List Str :=
  if DirectiveType.port ∈ v.directives ∧ DirectiveType.number ∈ v.directives then
    [lineMsg v (("port and number directives are redundant").data)]
  else []

/-- The options-with-directives check. -/
def checkOptionsDirectives (v : EnvVariable) : List Str :=
  match v.default with
  | some (.options _ _) =>
    if 0 < v.directives.length ∧
        (v.directives.filter (fun d => d ≠ .required)) ≠ [] then
      [lineMsg v (("options cannot be combined with validation directives").data)]
    else []
  | _ => []

/-- The secret-with-directives check. -/
def checkSecretDirectives (v : EnvVariable) : List Str :=
  match v.default with
  | some (.secret _ _) =>
    if 0 < v.directives.length then
      [lineMsg v (("secret cannot be combined with directives").data)]
    else []
  | _ => []

/-- The regex-conflicts check. -/
def checkRegexConflicts (v : EnvVariable) : List Str :=
  match v.regex with
  | some _ =>
    let conflicting := v.directives.filter fun d =>
      d = .url ∨ d = .email ∨ d = .port ∨ d = .number ∨ d = .boolean
    if conflicting ≠ [] then
      [lineMsg v (("regex cannot be combined with ").data ++
        List.intercalate ((", ").data) (conflicting.map directiveName) ++
        (" directives").data)]
    else []
  | none => []

/-- The condition check: the referenced variable must be defined earlier and
must carry the `boolean` directive. -/
def checkCondition (defined : JsMap EnvVariable) (v : EnvVariable) : List Str :=
  match v.condition with
  | none => []
  | some c =>
    match mapGet defined c.var with
    | none => [condMsgUndefined v c.var]
    | some u =>
      if DirectiveType.boolean ∈ u.directives then []
      else [condMsgNotBool v c.var]

/-- The interpolation-reference checks (self-reference first, then
defined-earlier). -/
def checkInterpolation (defined : JsMap EnvVariable) (v : EnvVariable) :
    List Str :=
  (extractInterpolationRefs v).flatMap fun ref =>
    if ref = v.name then
      [lineMsg v (("cannot reference itself").data)]
    else if (mapGet defined ref).isSome then []
    else
      [lineMsg v (("references undefined variable ").data ++ [squoteC] ++
        ref ++ [squoteC])]

/-- All checks for one variable, in source order. -/
def checksFor (defined : JsMap EnvVariable) (v : EnvVariable) : List Str :=
  checkBooleanCombined v ++ checkUrlEmail v ++ checkPortNumber v ++
    checkOptionsDirectives v ++ checkSecretDirectives v ++
    checkRegexConflicts v ++ checkCondition defined v ++
    checkInterpolation defined v

/-- The validator's walk over the variable list, threading the
`definedVariables` map (a variable is added after its own checks run). -/
def validateGo (defined : JsMap EnvVariable) : List EnvVariable → List Str
  | [] => []
  | v :: vs => checksFor defined v ++ validateGo (mapSet defined v.name v) vs

/-- `validate` from `src/template-validator.ts`. -/
def validate (t : ParsedTemplate) : List Str :=
  validateGo [] (getVariables t)

/-- `definedVariables` after processing a prefix of the variable list. -/
def buildDefined (pre : List EnvVariable) : JsMap EnvVariable :=
  pre.foldl (fun m u => mapSet m u.name u) []

theorem validateGo_append (m : JsMap EnvVariable) (xs ys : List EnvVariable) :
    validateGo m (xs ++ ys) =
      validateGo m xs ++
        validateGo (xs.foldl (fun m u => mapSet m u.name u) m) ys := by
  induction xs generalizing m with
  | nil => rfl
  | cons x xs ih =>
    simp only [List.cons_append, validateGo, List.foldl_cons, List.append_eq,
      ih, List.append_assoc]

theorem mapGet_mapSet_ne {β : Type} (m : JsMap β) (k k' : Str) (v : β)
    (h : k' ≠ k) : mapGet (mapSet m k' v) k = mapGet m k := by
  induction m with
  | nil => simp [mapSet, mapGet, h]
  | cons p rest ih =>
    obtain ⟨pk, pv⟩ := p
    by_cases hp : pk = k'
    · subst hp
      simp [mapSet, mapGet, h]
    · simp only [mapSet, if_neg hp]
      by_cases hk : pk = k
      · simp [mapGet, hk]
      · simp [mapGet, hk, ih]

theorem mapGet_foldl_of_ne (pre : List EnvVariable) (m : JsMap EnvVariable)
    (k : Str) (h : ∀ u ∈ pre, u.name ≠ k) :
    mapGet (pre.foldl (fun m u => mapSet m u.name u) m) k = mapGet m k := by
  induction pre generalizing m with
  | nil => rfl
  | cons u pre ih =>
    simp only [List.foldl_cons]
    rw [ih _ (fun w hw => h w (by simp [hw])),
      mapGet_mapSet_ne _ _ _ _ (h u (by simp))]

/-- C5: the validator errors (not merely warns) on a condition whose
referenced name is not defined by an earlier variable, and errors on a
condition whose referenced (last-defined earlier) variable lacks the
`boolean` directive. -/
theorem validate_condition_spec (t : ParsedTemplate)
    (pre post : List EnvVariable) (v : EnvVariable) (c : ConditionDirective)
    (hvars : getVariables t = pre ++ v :: post)
    (hcond : v.condition = some c) :
    ((∀ u ∈ pre, u.name ≠ c.var) → condMsgUndefined v c.var ∈ validate t) ∧
    (∀ u, mapGet (buildDefined pre) c.var = some u →
      DirectiveType.boolean ∉ u.directives →
      condMsgNotBool v c.var ∈ validate t) := by
  have hsplit : validate t =
      validateGo [] pre ++
        (checksFor (buildDefined pre) v ++
          validateGo (mapSet (buildDefined pre) v.name v) post) := by
    unfold validate
    rw [hvars, validateGo_append]
    rfl
  have hcheckmem : ∀ msg, msg ∈ checkCondition (buildDefined pre) v →
      msg ∈ validate t := by
    intro msg hmsg
    rw [hsplit]
    apply List.mem_append_right
    apply List.mem_append_left
    unfold checksFor
    exact List.mem_append_left _ (List.mem_append_right _ hmsg)
  constructor
  · intro hundef
    apply hcheckmem
    have hnone : mapGet (buildDefined pre) c.var = none := by
      unfold buildDefined
      rw [mapGet_foldl_of_ne _ _ _ hundef]
      rfl
    simp [checkCondition, hcond, hnone]
  · intro u hu hnb
    apply hcheckmem
    simp [checkCondition, hcond, hu, hnb]

/-- Concrete variable: `A` at line 1 with condition `if:B`. -/
def wVarA1 : EnvVariable :=
  { name := ("A").data, lineNumber := 1, condition := some ⟨("B").data⟩ }

/-- Concrete variable: `B` at line 1, no directives. -/
def wVarB : EnvVariable := { name := ("B").data, lineNumber := 1 }

/-- Concrete variable: `A` at line 2 with condition `if:B`. -/
def wVarA2 : EnvVariable :=
  { name := ("A").data, lineNumber := 2, condition := some ⟨("B").data⟩ }

/-- A template whose only variable has a dangling condition. -/
def wTemplate1 : ParsedTemplate := ⟨[.var [] wVarA1]⟩

/-- A template whose second variable's condition refers to the non-boolean
first variable. -/
def wTemplate2 : ParsedTemplate := ⟨[.var [] wVarB, .var [] wVarA2]⟩

/-- Witness for `validate_condition_spec`: a template whose second variable
has a condition referring to a non-boolean first variable, and a template
whose only variable has a condition referring to nothing. -/
theorem validate_condition_spec_witness :
    condMsgUndefined wVarA1 (("B").data) ∈ validate wTemplate1 ∧
    condMsgNotBool wVarA2 (("B").data) ∈ validate wTemplate2 := by
  constructor
  · exact (validate_condition_spec wTemplate1 [] [] wVarA1
      ⟨("B").data⟩ rfl rfl).1 (by simp)
  · exact (validate_condition_spec wTemplate2 [wVarB] [] wVarA2
      ⟨("B").data⟩ rfl rfl).2 wVarB (by rfl) (by decide)

/- ------------------------------------------------------------------
src/validator.ts — normalizeBoolean; src/prompter.ts — the prompting loop
------------------------------------------------------------------ -/

/-- `normalizeBoolean` from `src/validator.ts` (`null` is `none`;
`toLowerCase` is modelled at the ASCII level by `Char.toLower`). -/
def normalizeBoolean (value : Str) : Option Bool :=
  let normalized := jsTrim (value.map Char.toLower)
  if normalized = ("yes").data ∨ normalized = ("true").data ∨
      normalized = ("1").data ∨ normalized = ("y").data then some true
  else if normalized = ("no").data ∨ normalized = ("false").data ∨
      normalized = ("0").data ∨ normalized = ("n").data then some false
  else none

/-- `PrompterOptions` from `src/prompter.ts`. -/
structure PrompterOptions where
  useDefaults : Bool
  existingValues : JsMap Str
  merge : Bool
  quiet : Bool

/-- `PrompterStats` from `src/types.ts`. -/
structure PrompterStats where
  prompted : Nat
  defaults : Nat
  kept : Nat
  generated : Nat
  skipped : Nat
deriving DecidableEq

/-- `ResolvedVariable` from `src/types.ts`. -/
structure ResolvedVariable where
  name : Str
  value : Str
  sectionName : Option Str := none
deriving DecidableEq

/-- `PrompterResult` from `src/types.ts` (`variables` is reserved in Lean,
so the field is called `vars`). -/
structure PrompterResult where
  vars : List ResolvedVariable
  stats : PrompterStats
deriving DecidableEq

/-- `evaluateCondition` from `src/prompter.ts`: an absent condition variable
counts as true; a present one must normalize to boolean true. -/
def evaluateCondition (condition : ConditionDirective)
    (resolvedValues : JsMap Str) : Bool :=
  match mapGet resolvedValues condition.var with
  | none => true
  | some conditionValue => normalizeBoolean conditionValue = some true

/-- How one loop iteration of `promptForVariables` ends. -/
inductive StepTag
  | kept | skipped | generated | defaulted | prompted
deriving DecidableEq

/-- The outcome of processing one variable: user cancellation, the
`--defaults` required-but-empty failure (both abort the whole run), or a
resolved variable with the branch that produced it. -/
inductive StepResult
  | cancel
  | requiredMissing
  | cont (rv : ResolvedVariable) (tag : StepTag)
deriving DecidableEq

/-- The part of one `promptForVariables` iteration after the merge-kept
check, in source branch order: condition skip, secret generation,
`--defaults`, interactive prompt. -/
def processAfterKept (resolveFn : Option DefaultValue → ResolveResult)
    (promptFn : EnvVariable → Str → Option Str) (options : PrompterOptions)
    (resolvedValues : JsMap Str) (v : EnvVariable) : StepResult :=
  if (match v.condition with
      | some c => !(evaluateCondition c resolvedValues)
      | none => false) then
    .cont ⟨v.name, [], v.sectionName⟩ .skipped
  else
    if (match v.default with
        | some (.secret _ _) => true
        | _ => false) then
      .cont ⟨v.name, (resolveFn v.default).value, v.sectionName⟩ .generated
    else if options.useDefaults then
      if DirectiveType.required ∈ v.directives ∧
          (resolveFn v.default).value = [] then
        .requiredMissing
      else .cont ⟨v.name, (resolveFn v.default).value, v.sectionName⟩ .defaulted
    else
      match promptFn v (resolveFn v.default).value with
      | none => .cancel
      | some value => .cont ⟨v.name, value, v.sectionName⟩ .prompted

/-- One iteration of the `promptForVariables` loop: the merge-kept check
first (an `undefined` lookup falls through, like the source), otherwise
`processAfterKept`.  `resolveFn` stands for `resolveDefault` (shell/secret
effects included) and `promptFn` for `promptForVariable` (`none` is a
cancellation).  Section logging only prints, so it is not modelled. -/
def processVariable (resolveFn : Option DefaultValue → ResolveResult)
    (promptFn : EnvVariable → Str → Option Str) (options : PrompterOptions)
    (resolvedValues : JsMap Str) (v : EnvVariable) : StepResult :=
  if options.merge ∧ mapHas options.existingValues v.name then
    match mapGet options.existingValues v.name with
    | some ev => .cont ⟨v.name, ev, v.sectionName⟩ .kept
    | none => processAfterKept resolveFn promptFn options resolvedValues v
  else processAfterKept resolveFn promptFn options resolvedValues v

/-- Bump the stats counter matching a step tag. -/
def bumpStats (stats : PrompterStats) : StepTag → PrompterStats
  | .kept => { stats with kept := stats.kept + 1 }
  | .skipped => { stats with skipped := stats.skipped + 1 }
  | .generated => { stats with generated := stats.generated + 1 }
  | .defaulted => { stats with defaults := stats.defaults + 1 }
  | .prompted => { stats with prompted := stats.prompted + 1 }

/-- The loop of `promptForVariables`, threading results, the growing
resolved-values map, and stats. -/
def promptGo (resolveFn : Option DefaultValue → ResolveResult)
    (promptFn : EnvVariable → Str → Option Str) (options : PrompterOptions) :
    List EnvVariable → List ResolvedVariable → JsMap Str → PrompterStats →
    Option PrompterResult
  | [], results, _, stats => some ⟨results, stats⟩
  | v :: vs, results, resolvedValues, stats =>
    match processVariable resolveFn promptFn options resolvedValues v with
    | .cancel => none
    | .requiredMissing => none
    | .cont rv tag =>
      promptGo resolveFn promptFn options vs (results ++ [rv])
        (mapSet resolvedValues rv.name rv.value) (bumpStats stats tag)

/-- `promptForVariables` from `src/prompter.ts` (`none` models the `null`
return on cancellation or a missing required default). -/
def promptForVariables (resolveFn : Option DefaultValue → ResolveResult)
    (promptFn : EnvVariable → Str → Option Str)
    (vars : List EnvVariable) (options : PrompterOptions) :
    Option PrompterResult :=
  promptGo resolveFn promptFn options vars [] [] ⟨0, 0, 0, 0, 0⟩

theorem processAfterKept_skip_iff (resolveFn : Option DefaultValue → ResolveResult)
    (promptFn : EnvVariable → Str → Option Str) (options : PrompterOptions)
    (resolvedValues : JsMap Str) (v : EnvVariable) (c : ConditionDirective)
    (hcond : v.condition = some c) :
    (processAfterKept resolveFn promptFn options resolvedValues v =
        .cont ⟨v.name, [], v.sectionName⟩ .skipped ↔
      evaluateCondition c resolvedValues = false) := by
  unfold processAfterKept
  rw [hcond]
  by_cases he : evaluateCondition c resolvedValues = true
  · rw [if_neg (by simp [he])]
    constructor
    · intro h
      exfalso
      split at h
      · simp at h
      · split at h
        · split at h
          · exact StepResult.noConfusion h
          · simp at h
        · split at h
          · exact StepResult.noConfusion h
          · simp at h
    · intro h
      rw [he] at h
      exact Bool.noConfusion h
  · have he' : evaluateCondition c resolvedValues = false :=
      Bool.not_eq_true _ ▸ (Bool.eq_false_iff.mpr (by simpa using he))
    rw [if_pos (by simp [he'])]
    simp [he']

/-- C10 (amended): an absent condition variable makes `evaluateCondition`
true, and such a variable is never skipped; a variable is skipped with the
empty value exactly when it is not first kept from existing values
(`options.merge` with an existing entry for its name) and its condition
variable is present in the resolved-values map with a value that does not
normalize to boolean true. -/
theorem evaluateCondition_skip_spec :
    (∀ (c : ConditionDirective) (resolvedValues : JsMap Str),
      mapGet resolvedValues c.var = none →
      evaluateCondition c resolvedValues = true) ∧
    (∀ (c : ConditionDirective) (resolvedValues : JsMap Str) (val : Str),
      mapGet resolvedValues c.var = some val →
      (evaluateCondition c resolvedValues = true ↔
        normalizeBoolean val = some true)) ∧
    (∀ resolveFn promptFn (options : PrompterOptions)
      (resolvedValues : JsMap Str) (v : EnvVariable) (c : ConditionDirective),
      v.condition = some c →
      (processVariable resolveFn promptFn options resolvedValues v =
          .cont ⟨v.name, [], v.sectionName⟩ .skipped ↔
        (¬(options.merge ∧ mapHas options.existingValues v.name) ∧
          ∃ val, mapGet resolvedValues c.var = some val ∧
            normalizeBoolean val ≠ some true))) := by
  refine ⟨?_, ?_, ?_⟩
  · intro c resolvedValues h
    unfold evaluateCondition
    rw [h]
  · intro c resolvedValues val h
    unfold evaluateCondition
    rw [h]
    simp
  · intro resolveFn promptFn options resolvedValues v c hcond
    unfold processVariable
    by_cases hm : options.merge ∧ mapHas options.existingValues v.name
    · rw [if_pos hm]
      have hex : ∃ ev, mapGet options.existingValues v.name = some ev := by
        have := hm.2
        unfold mapHas at this
        exact Option.isSome_iff_exists.mp this
      obtain ⟨ev, hev⟩ := hex
      rw [hev]
      constructor
      · intro h
        simp at h
      · intro h
        exact absurd hm h.1
    · rw [if_neg hm,
        processAfterKept_skip_iff resolveFn promptFn options resolvedValues v c
          hcond]
      constructor
      · intro h
        refine ⟨hm, ?_⟩
        unfold evaluateCondition at h
        cases hg : mapGet resolvedValues c.var with
        | none => rw [hg] at h; exact Bool.noConfusion h
        | some val =>
          rw [hg] at h
          refine ⟨val, rfl, ?_⟩
          simpa using h
      · intro ⟨_, val, hval, hnorm⟩
        unfold evaluateCondition
        rw [hval]
        simpa using hnorm

/-- A static variable `A=no`. -/
def cVarA : EnvVariable :=
  { name := ("A").data, lineNumber := 1,
    default := some (.static (("no").data)) }

/-- A variable `B=<if:A>` gated on `A`. -/
def cVarB : EnvVariable :=
  { name := ("B").data, lineNumber := 2, condition := some ⟨("A").data⟩ }

/-- Options for the counterexample run: `--defaults` with merge and an
existing `.env` that already holds `B=x`. -/
def cOptions : PrompterOptions :=
  { useDefaults := true, existingValues := [(("B").data, ("x").data)],
    merge := true, quiet := true }

/-- A pure resolver oracle: static defaults resolve to themselves,
everything else to the empty string. -/
def cResolveFn : Option DefaultValue → ResolveResult := fun d =>
  match d with
  | some (.static v) => ⟨v, none⟩
  | _ => ⟨[], none⟩

/-- A prompt oracle that accepts the offered default. -/
def cPromptFn : EnvVariable → Str → Option Str := fun _ d => some d

/-- C10 counterexample: `B`'s condition variable `A` is present in the
resolved-values map with value `no` (which does not normalize to true) when
`B` is processed, yet `B` is *kept* from the existing values, not skipped:
the run yields `B=x` with `skipped = 0`. -/
theorem promptForVariables_counterexample :
    promptForVariables cResolveFn cPromptFn [cVarA, cVarB] cOptions =
      some ⟨[⟨("A").data, ("no").data, none⟩, ⟨("B").data, ("x").data, none⟩],
        ⟨0, 1, 1, 0, 0⟩⟩ ∧
    normalizeBoolean (("no").data) ≠ some true ∧
    evaluateCondition ⟨("A").data⟩ [(("A").data, ("no").data)] = false ∧
    (⟨("B").data, [], none⟩ : ResolvedVariable) ∉
      [(⟨("A").data, ("no").data, none⟩ : ResolvedVariable),
        ⟨("B").data, ("x").data, none⟩] := by
  refine ⟨by decide, by decide, by decide, by decide⟩

/-- Witness for `evaluateCondition_skip_spec`: the skip-iff applied at a
concrete step where the condition variable is present and false. -/
theorem evaluateCondition_skip_spec_witness :
    processVariable cResolveFn cPromptFn
        { useDefaults := true, existingValues := [], merge := true,
          quiet := true }
        [(("A").data, ("no").data)] cVarB =
      .cont ⟨("B").data, [], none⟩ .skipped := by
  have h := (evaluateCondition_skip_spec.2.2 cResolveFn cPromptFn
    { useDefaults := true, existingValues := [], merge := true, quiet := true }
    [(("A").data, ("no").data)] cVarB ⟨("A").data⟩ (by rfl)).mpr
    ⟨by decide, ("no").data, by decide, by decide⟩
  exact h

/- ------------------------------------------------------------------
src/resolver.ts — interpolate
------------------------------------------------------------------ -/

/-- ECMAScript `GetSubstitution` for a string-valued search pattern (no
capture groups): in the replacement, `$$` yields `$`, `$&` the matched
text, `` $` `` the part before the match, `$'` the part after it; any
other `$` is literal. -/
def getSubstitution (matched before after : Str) : Str → Str
  | [] => []
  | c :: rest =>
    if c = dollarC then
      match rest with
      | [] => [c]
      | d :: rest2 =>
        if d = dollarC then dollarC :: getSubstitution matched before after rest2
        else if d = '&' then matched ++ getSubstitution matched before after rest2
        else if d = btickC then before ++ getSubstitution matched before after rest2
        else if d = squoteC then after ++ getSubstitution matched before after rest2
        else c :: getSubstitution matched before after (d :: rest2)
    else c :: getSubstitution matched before after rest

/-- Split `s` as `pre ++ target ++ post` at the first occurrence of
`target`, if any. -/
def splitFirst (target : Str) : Str → Option (Str × Str)
  | [] => if target.isPrefixOf ([] : Str) then some ([], []) else none
  | c :: r =>
    if target.isPrefixOf (c :: r) then some ([], (c :: r).drop target.length)
    else (splitFirst target r).map (fun p => (c :: p.1, p.2))

/-- JavaScript `s.replace(target, repl)` with a string pattern: replace the
first occurrence of `target`, applying `GetSubstitution` to `repl`. -/
def jsReplaceFirstStr (s target repl : Str) : Str :=
  match splitFirst target s with
  | none => s
  | some (pre, post) => pre ++ getSubstitution target pre post repl ++ post

/-- The replacement loop of `interpolate`: for each scanned reference (the
matches are found on the original string), look its name up and replace the
first occurrence of the matched text in the working result.  (The source's
`if (!varName) continue` guard is dead: scanned names are never empty.) -/
def interpolateGo (resolvedValues : JsMap Str) :
    List (Str × Str) → Str → ResolveResult
  | [], result => ⟨result, none⟩
  | (full, name) :: ms, result =>
    match mapGet resolvedValues name with
    | none => ⟨[], some (("Undefined variable: ").data ++ name)⟩
    | some resolved =>
      interpolateGo resolvedValues ms (jsReplaceFirstStr result full resolved)

/-- `interpolate` from `src/resolver.ts`. -/
def interpolate (value : Str) (resolvedValues : JsMap Str) : ResolveResult :=
  interpolateGo resolvedValues (findRefs value) value

/-- A decomposition of a string into `${NAME}` references and the text
between them. -/
inductive IPart
  | seg (s : Str)
  | ref (name : Str)
deriving DecidableEq

/-- The text of a part (`${` and `}` around a reference's name). -/
def partText : IPart → Str
  | .seg s => s
  | .ref n => dollarC :: lbraceC :: (n ++ [rbraceC])

/-- The concatenated text of a decomposition. -/
def flattenParts (ps : List IPart) : Str := ps.flatMap partText

/-- A syntactically well-formed variable name (`[A-Z_][A-Z0-9_]*`). -/
def wfName (n : Str) : Prop :=
  match n with
  | [] => False
  | c :: r => isNameStart c = true ∧ ∀ x ∈ r, isNameChar x = true

instance (n : Str) : Decidable (wfName n) :=
  match n with
  | [] => isFalse (fun h => h)
  | _ :: _ => inferInstanceAs (Decidable (_ ∧ _))

/-- A well-formed part: a reference name is well formed, a segment contains
no `$` at all. -/
def wfPart : IPart → Prop
  | .seg s => dollarC ∉ s
  | .ref n => wfName n

instance (p : IPart) : Decidable (wfPart p) :=
  match p with
  | .seg s => inferInstanceAs (Decidable (dollarC ∉ s))
  | .ref n => inferInstanceAs (Decidable (wfName n))

/-- A well-formed decomposition. -/
def wfParts (ps : List IPart) : Prop := ∀ p ∈ ps, wfPart p

instance (ps : List IPart) : Decidable (wfParts ps) :=
  List.decidableBAll wfPart ps

/-- The name of a reference part resolves, to a `$`-free value. -/
def resolvablePart (m : JsMap Str) : IPart → Prop
  | .ref n =>
    (match mapGet m n with
     | some val => dollarC ∉ val
     | none => False)
  | .seg _ => True

instance (m : JsMap Str) (p : IPart) : Decidable (resolvablePart m p) :=
  match p with
  | .seg _ => isTrue trivial
  | .ref n =>
    match h : mapGet m n with
    | some val =>
      decidable_of_iff (dollarC ∉ val) (by simp [resolvablePart, h])
    | none => isFalse (by simp [resolvablePart, h])

/-- All names referenced by the decomposition resolve, to `$`-free values. -/
def refsResolvable (m : JsMap Str) (ps : List IPart) : Prop :=
  ∀ p ∈ ps, resolvablePart m p

instance (m : JsMap Str) (ps : List IPart) : Decidable (refsResolvable m ps) :=
  List.decidableBAll (resolvablePart m) ps

/-- The reference matches the scanner must find on a decomposition. -/
def refsOf : List IPart → List (Str × Str)
  | [] => []
  | .seg _ :: ps => refsOf ps
  | .ref n :: ps => (partText (.ref n), n) :: refsOf ps

/-- Claim-side simultaneous substitution of one part. -/
def substPart (m : JsMap Str) : IPart → Str
  | .seg s => s
  | .ref n => (mapGet m n).getD []

theorem findRefs_cons_some (c : Char) (rest full nm rest2 : Str)
    (h : tryRef (c :: rest) = some (full, nm, rest2)) :
    findRefs (c :: rest) = (full, nm) :: findRefs rest2 := by
  rw [findRefs]
  split
  · rename_i full' nm' rest2' heq
    rw [h] at heq
    injection heq with heq
    injection heq with h1 heq
    injection heq with h2 h3
    rw [h1, h2, h3]
  · rename_i heq
    rw [h] at heq
    cases heq

theorem findRefs_cons_none (c : Char) (rest : Str)
    (h : tryRef (c :: rest) = none) :
    findRefs (c :: rest) = findRefs rest := by
  rw [findRefs]
  split
  · rename_i full' nm' rest2' heq
    rw [h] at heq
    cases heq
  · rfl

theorem tryRef_ne_dollar (c : Char) (rest : Str) (h : c ≠ dollarC) :
    tryRef (c :: rest) = none := by
  cases rest with
  | nil => rfl
  | cons b s2 =>
    cases s2 with
    | nil => rfl
    | cons c0 t1 =>
      have hred : tryRef (c :: b :: c0 :: t1) =
          (if c = dollarC && b = lbraceC && isNameStart c0 then
            match t1.dropWhile isNameChar with
            | rb :: rest2 =>
              if rb = rbraceC then
                some (c :: b :: ((c0 :: t1.takeWhile isNameChar) ++ [rb]),
                  c0 :: t1.takeWhile isNameChar, rest2)
              else none
            | [] => none
          else none) := rfl
      rw [hred, if_neg (by simp [h])]

theorem findRefs_seg_append (s t : Str) (hs : dollarC ∉ s) :
    findRefs (s ++ t) = findRefs t := by
  induction s with
  | nil => rfl
  | cons c r ih =>
    have hc : c ≠ dollarC := fun he => hs (he ▸ List.mem_cons_self c r)
    rw [List.cons_append,
      findRefs_cons_none _ _ (tryRef_ne_dollar c (r ++ t) hc),
      ih (fun hm => hs (List.mem_cons_of_mem c hm))]

theorem takeWhile_append_all (p : Char → Bool) (l1 : Str) (c : Char)
    (l2 : Str) (h1 : ∀ x ∈ l1, p x = true) (h2 : p c = false) :
    (l1 ++ c :: l2).takeWhile p = l1 := by
  induction l1 with
  | nil => simp [List.takeWhile_cons, h2]
  | cons a r ih =>
    rw [List.cons_append, List.takeWhile_cons, h1 a (by simp)]
    rw [ih (fun x hx => h1 x (by simp [hx]))]
    simp

theorem dropWhile_append_all (p : Char → Bool) (l1 : Str) (c : Char)
    (l2 : Str) (h1 : ∀ x ∈ l1, p x = true) (h2 : p c = false) :
    (l1 ++ c :: l2).dropWhile p = c :: l2 := by
  induction l1 with
  | nil => simp [List.dropWhile_cons, h2]
  | cons a r ih =>
    rw [List.cons_append, List.dropWhile_cons, h1 a (by simp)]
    exact ih (fun x hx => h1 x (by simp [hx]))

theorem tryRef_ref (n t : Str) (hn : wfName n) :
    tryRef (partText (.ref n) ++ t) =
      some (partText (.ref n), n, t) := by
  match n with
  | [] => exact absurd hn (by simp [wfName])
  | c0 :: ntail =>
    obtain ⟨hstart, hrest⟩ := hn
    have hshape : partText (.ref (c0 :: ntail)) ++ t =
        dollarC :: lbraceC :: c0 :: (ntail ++ rbraceC :: t) := by
      simp [partText]
    rw [hshape]
    have hred : tryRef (dollarC :: lbraceC :: c0 :: (ntail ++ rbraceC :: t)) =
        (if dollarC = dollarC && lbraceC = lbraceC && isNameStart c0 then
          match (ntail ++ rbraceC :: t).dropWhile isNameChar with
          | rb :: rest2 =>
            if rb = rbraceC then
              some (dollarC :: lbraceC ::
                  ((c0 :: (ntail ++ rbraceC :: t).takeWhile isNameChar) ++ [rb]),
                c0 :: (ntail ++ rbraceC :: t).takeWhile isNameChar, rest2)
            else none
          | [] => none
        else none) := rfl
    have hrb : isNameChar rbraceC = false := by decide
    rw [hred, if_pos (by simp [hstart]),
      dropWhile_append_all _ _ _ _ hrest hrb,
      takeWhile_append_all _ _ _ _ hrest hrb]
    simp [partText]

theorem findRefs_nil : findRefs [] = [] := by
  rw [findRefs]

theorem findRefs_flatten (ps : List IPart) (hwf : wfParts ps) :
    findRefs (flattenParts ps) = refsOf ps := by
  induction ps with
  | nil => simp [flattenParts, refsOf, findRefs_nil]
  | cons p ps ih =>
    have hwf' : wfParts ps := fun q hq => hwf q (by simp [hq])
    match p with
    | .seg s =>
      have hs : dollarC ∉ s := hwf (.seg s) (by simp)
      show findRefs (s ++ flattenParts ps) = refsOf ps
      rw [findRefs_seg_append _ _ hs]
      exact ih hwf'
    | .ref n =>
      have hn : wfName n := hwf (.ref n) (by simp)
      show findRefs (partText (.ref n) ++ flattenParts ps) = _
      cases hpt : partText (.ref n) with
      | nil => simp [partText] at hpt
      | cons c rest =>
        rw [← hpt]
        have htry := tryRef_ref n (flattenParts ps) hn
        rw [hpt, List.cons_append] at htry
        rw [hpt, List.cons_append,
          findRefs_cons_some _ _ _ _ _ htry, ← hpt]
        show _ = refsOf (.ref n :: ps)
        unfold refsOf
        rw [ih hwf']

theorem splitFirst_dollar_head (t' pre post : Str) (hpre : dollarC ∉ pre) :
    splitFirst (dollarC :: t') (pre ++ (dollarC :: t') ++ post) =
      some (pre, post) := by
  induction pre with
  | nil =>
    have hp : (dollarC :: t').isPrefixOf ((dollarC :: t') ++ post) := by
      rw [List.isPrefixOf_iff_prefix]
      exact ⟨post, rfl⟩
    simp only [List.nil_append]
    cases hcat : (dollarC :: t') ++ post with
    | nil => simp at hcat
    | cons a r =>
      rw [← hcat]
      have hdef : splitFirst (dollarC :: t') ((dollarC :: t') ++ post) =
          (if (dollarC :: t').isPrefixOf ((dollarC :: t') ++ post) then
            some ([], ((dollarC :: t') ++ post).drop (dollarC :: t').length)
          else ((splitFirst (dollarC :: t') (t' ++ post)).map
            (fun p => (dollarC :: p.1, p.2)))) := by
        rfl
      rw [hdef, if_pos hp, List.drop_left]
  | cons c pre ih =>
    have hc : c ≠ dollarC := fun he => hpre (he ▸ List.mem_cons_self c pre)
    have hbeq : (dollarC == c) = false := by
      simp only [beq_eq_false_iff_ne, ne_eq]
      exact fun he => hc he.symm
    have hnp : (dollarC :: t').isPrefixOf
        (c :: (pre ++ (dollarC :: t') ++ post)) = false := by
      simp only [List.isPrefixOf, hbeq, Bool.false_and]
    have hnp' : ¬ ((dollarC :: t').isPrefixOf
        (c :: (pre ++ (dollarC :: t') ++ post)) = true) := by
      rw [hnp]
      exact Bool.false_ne_true
    show splitFirst (dollarC :: t') (c :: (pre ++ (dollarC :: t') ++ post)) = _
    have hdef : splitFirst (dollarC :: t')
        (c :: (pre ++ (dollarC :: t') ++ post)) =
        (if (dollarC :: t').isPrefixOf (c :: (pre ++ (dollarC :: t') ++ post))
          then some ([],
            (c :: (pre ++ (dollarC :: t') ++ post)).drop (dollarC :: t').length)
          else ((splitFirst (dollarC :: t') (pre ++ (dollarC :: t') ++ post)).map
            (fun p => (c :: p.1, p.2)))) := rfl
    rw [hdef, if_neg hnp',
      ih (fun hm => hpre (List.mem_cons_of_mem c hm))]
    rfl

theorem jsReplaceFirstStr_eq (s target repl pre post : Str)
    (h : splitFirst target s = some (pre, post)) :
    jsReplaceFirstStr s target repl =
      pre ++ getSubstitution target pre post repl ++ post := by
  unfold jsReplaceFirstStr
  rw [h]

theorem interpolateGo_cons_some (m : JsMap Str) (full name val : Str)
    (ms : List (Str × Str)) (result : Str) (h : mapGet m name = some val) :
    interpolateGo m ((full, name) :: ms) result =
      interpolateGo m ms (jsReplaceFirstStr result full val) := by
  show (match mapGet m name with
    | none =>
      (⟨[], some (("Undefined variable: ").data ++ name)⟩ : ResolveResult)
    | some resolved =>
      interpolateGo m ms (jsReplaceFirstStr result full resolved)) = _
  rw [h]

theorem getSubstitution_free (matched before after repl : Str)
    (h : dollarC ∉ repl) :
    getSubstitution matched before after repl = repl := by
  induction repl with
  | nil => rfl
  | cons c rest ih =>
    have hc : c ≠ dollarC := fun he => h (he ▸ List.mem_cons_self c rest)
    unfold getSubstitution
    rw [if_neg hc, ih (fun hm => h (List.mem_cons_of_mem c hm))]

theorem interpolateGo_parts (m : JsMap Str) (ps : List IPart) (done : Str)
    (hdone : dollarC ∉ done) (hwf : wfParts ps) (hres : refsResolvable m ps) :
    interpolateGo m (refsOf ps) (done ++ flattenParts ps) =
      ⟨done ++ ps.flatMap (substPart m), none⟩ := by
  induction ps generalizing done with
  | nil => simp [refsOf, flattenParts, interpolateGo]
  | cons p ps ih =>
    have hwf' : wfParts ps := fun q hq => hwf q (by simp [hq])
    have hres' : refsResolvable m ps := fun q hq => hres q (by simp [hq])
    match p with
    | .seg s =>
      have hs : dollarC ∉ s := hwf (.seg s) (by simp)
      show interpolateGo m (refsOf ps) (done ++ (s ++ flattenParts ps)) = _
      rw [← List.append_assoc]
      rw [ih (done ++ s) (by
        intro hm
        rcases List.mem_append.mp hm with hm | hm
        · exact hdone hm
        · exact hs hm) hwf' hres']
      simp [substPart]
    | .ref n =>
      have hn : (match mapGet m n with
          | some val => dollarC ∉ val
          | none => False) := hres (.ref n) (by simp)
      cases hget : mapGet m n with
      | none => rw [hget] at hn; exact absurd hn (by simp)
      | some val =>
        rw [hget] at hn
        have hnval : dollarC ∉ val := hn
        show interpolateGo m ((partText (.ref n), n) :: refsOf ps)
          (done ++ (partText (.ref n) ++ flattenParts ps)) = _
        rw [interpolateGo_cons_some _ _ _ _ _ _ hget]
        have hsp : splitFirst (partText (.ref n))
            (done ++ (partText (.ref n) ++ flattenParts ps)) =
            some (done, flattenParts ps) := by
          have hpt : partText (.ref n) =
              dollarC :: (lbraceC :: (n ++ [rbraceC])) := rfl
          rw [← List.append_assoc, hpt]
          exact splitFirst_dollar_head _ _ _ hdone
        rw [jsReplaceFirstStr_eq _ _ _ _ _ hsp,
          getSubstitution_free _ _ _ _ hnval,
          ih (done ++ val) (by
            intro hm
            rcases List.mem_append.mp hm with hm | hm
            · exact hdone hm
            · exact hnval hm) hwf' hres']
        simp [substPart, hget]

theorem interpolateGo_error (m : JsMap Str) (refs : List (Str × Str))
    (result : Str) (h : ∃ p ∈ refs, mapGet m p.2 = none) :
    ∃ n, mapGet m n = none ∧
      interpolateGo m refs result =
        ⟨[], some (("Undefined variable: ").data ++ n)⟩ := by
  induction refs generalizing result with
  | nil => obtain ⟨p, hp, _⟩ := h; simp at hp
  | cons q refs ih =>
    obtain ⟨full, name⟩ := q
    cases hget : mapGet m name with
    | none =>
      refine ⟨name, hget, ?_⟩
      unfold interpolateGo
      rw [hget]
    | some val =>
      obtain ⟨p, hp, hpn⟩ := h
      rcases List.mem_cons.mp hp with hp | hp
      · subst hp
        simp only at hpn
        rw [hpn] at hget
        cases hget
      · have := ih (jsReplaceFirstStr result full val) ⟨p, hp, hpn⟩
        obtain ⟨n, hn, heq⟩ := this
        refine ⟨n, hn, ?_⟩
        unfold interpolateGo
        rw [hget]
        exact heq

/-- C4 (amended): for a value decomposed into `${NAME}` references and
`$`-free intervening text, with all referenced names bound to `$`-free
values, `interpolate` substitutes each reference with its entry and leaves
the rest untouched; for any value at all, if the scan finds a reference
whose name is absent, the result is an `Undefined variable` error with the
empty value. -/
theorem interpolate_spec :
    (∀ (ps : List IPart) (m : JsMap Str),
      wfParts ps → refsResolvable m ps →
      interpolate (flattenParts ps) m = ⟨ps.flatMap (substPart m), none⟩) ∧
    (∀ (value : Str) (m : JsMap Str),
      (∃ p ∈ findRefs value, mapGet m p.2 = none) →
      ∃ n, mapGet m n = none ∧
        interpolate value m =
          ⟨[], some (("Undefined variable: ").data ++ n)⟩) := by
  constructor
  · intro ps m hwf hres
    unfold interpolate
    rw [findRefs_flatten ps hwf]
    have := interpolateGo_parts m ps [] (by simp) hwf hres
    simpa using this
  · intro value m h
    exact interpolateGo_error m (findRefs value) value h

/-- The adversarial value `${A${B}${A}`. -/
def ceVal : Str :=
  [dollarC, lbraceC, 'A', dollarC, lbraceC, 'B', rbraceC, dollarC, lbraceC,
    'A', rbraceC]

/-- Resolved values `B ↦ "}"`, `A ↦ "z"`. -/
def ceMap : JsMap Str := [((("B").data), [rbraceC]), ((("A").data), [('z' : Char)])]

/-- What the claim predicts for `ceVal`: each occurrence of `${NAME}`
(namely `${B}` and the trailing `${A}`) replaced by its entry in place,
i.e. `${A}z`. -/
def ceClaimExpected : Str := [dollarC, lbraceC, 'A', rbraceC, 'z']

theorem findRefs_ceVal :
    findRefs ceVal =
      [([dollarC, lbraceC, 'B', rbraceC], [('B' : Char)]),
        ([dollarC, lbraceC, 'A', rbraceC], [('A' : Char)])] := by
  show findRefs (dollarC :: [lbraceC, 'A', dollarC, lbraceC, 'B', rbraceC,
    dollarC, lbraceC, 'A', rbraceC]) = _
  rw [findRefs_cons_none _ _ (by decide), findRefs_cons_none _ _ (by decide),
    findRefs_cons_none _ _ (by decide),
    findRefs_cons_some _ _ [dollarC, lbraceC, 'B', rbraceC] [('B' : Char)]
      [dollarC, lbraceC, 'A', rbraceC] (by decide),
    findRefs_cons_some _ _ [dollarC, lbraceC, 'A', rbraceC] [('A' : Char)]
      [] (by decide), findRefs_nil]

/-- C4 counterexample: the sequential first-occurrence replacement of
`interpolate` produces `z${A}` on `${A${B}${A}` (the `${B} ↦ }` replacement
manufactures an earlier `${A}` occurrence which the next replacement hits),
not the claimed in-place substitution `${A}z`. -/
theorem interpolate_counterexample :
    interpolate ceVal ceMap =
      ⟨[('z' : Char), dollarC, lbraceC, 'A', rbraceC], none⟩ ∧
    interpolate ceVal ceMap ≠ ⟨ceClaimExpected, none⟩ := by
  constructor
  · unfold interpolate
    rw [findRefs_ceVal]
    decide
  · unfold interpolate
    rw [findRefs_ceVal]
    decide

/-- Witness for `interpolate_spec`: a concrete decomposition
`"host=" ++ ${A} ++ "." ++ ${A}` with `A ↦ "x"`, and a concrete undefined
reference. -/
theorem interpolate_spec_witness :
    interpolate
        (flattenParts [.seg (("host=").data), .ref (("A").data),
          .seg ((".").data), .ref (("A").data)])
        [((("A").data), ("x").data)] =
      ⟨[.seg (("host=").data), .ref (("A").data), .seg ((".").data),
          .ref (("A").data)].flatMap
        (substPart [((("A").data), ("x").data)]), none⟩ ∧
    ∃ n, mapGet ([] : JsMap Str) n = none ∧
      interpolate (flattenParts [.ref (("Z").data)]) [] =
        ⟨[], some (("Undefined variable: ").data ++ n)⟩ := by
  constructor
  · exact interpolate_spec.1
      [.seg (("host=").data), .ref (("A").data), .seg ((".").data),
        .ref (("A").data)]
      [((("A").data), ("x").data)] (by decide) (by decide)
  · have hf : findRefs (flattenParts [IPart.ref (("Z").data)]) =
        [(partText (.ref (("Z").data)), ("Z").data)] := by
      rw [findRefs_flatten _ (by decide)]
      rfl
    exact interpolate_spec.2 (flattenParts [.ref (("Z").data)]) []
      ⟨(partText (.ref (("Z").data)), ("Z").data), by rw [hf]; simp, by rfl⟩

/- ------------------------------------------------------------------
src/transformer.ts — applyTransforms

JavaScript regexes appear here only through `String.replace(regex, str)`
on patterns of a small fragment (alternatives of `^`/`$`-anchored
character-class or literal atoms with `+`).  That fragment is modelled by
an explicit AST, a fuel-based parser and a greedy backtracking matcher;
patterns outside the fragment leave the input unchanged (no transform the
theorems touch uses one).  Both patterns `-` and `[-]` parse to the same
canonical class atom, which is what makes slugify's inlined regexes and
the trim-built ones comparable.
------------------------------------------------------------------ -/

/-- One atom of the regex fragment: a (possibly negated) set of character
ranges, optionally repeated with `+`.  A literal character is the
singleton range. -/
structure RAtom where
  neg : Bool
  items : List (Char × Char)
  plus : Bool
deriving DecidableEq

/-- One alternative: optional `^`, one or more atoms, optional `$`. -/
structure RAlt where
  caret : Bool
  atoms : List RAtom
  dollar : Bool
deriving DecidableEq

/-- Parse the items of a character class up to the closing `]`; handles
`\x` escapes, `a-z` ranges, and literal `-` at either edge. -/
def parseClassItems : Nat → Str → Option (List (Char × Char) × Str)
  | 0, _ => none
  | _ + 1, [] => none
  | fuel + 1, c :: r =>
    if c = ']' then some ([], r)
    else if c = bslashC then
      match r with
      | [] => none
      | e :: r1 => (parseClassItems fuel r1).map (fun p => ((e, e) :: p.1, p.2))
    else
      match r with
      | '-' :: e2 :: r2 =>
        if e2 = ']' then
          (parseClassItems fuel ('-' :: e2 :: r2)).map
            (fun p => ((c, c) :: p.1, p.2))
        else (parseClassItems fuel r2).map (fun p => ((c, e2) :: p.1, p.2))
      | _ => (parseClassItems fuel r).map (fun p => ((c, c) :: p.1, p.2))

/-- Characters we refuse as bare literals (unsupported regex syntax). -/
def unsupportedLiteral (c : Char) : Bool :=
  c = '(' || c = ')' || c = '*' || c = '?' || c = '.' || c = lbraceC ||
    c = rbraceC || c = '^' || c = ']' || c = '+'

/-- Parse a sequence of atoms, stopping at `|`, a final `$`, or the end. -/
def parseAtoms : Nat → Str → Option (List RAtom × Str)
  | 0, _ => none
  | _ + 1, [] => some ([], [])
  | fuel + 1, c :: r =>
    if c = '|' then some ([], c :: r)
    else if c = dollarC then
      match r with
      | [] => some ([], c :: r)
      | '|' :: _ => some ([], c :: r)
      | _ => none
    else if c = '[' then
      (match r with
        | '^' :: r1 => (parseClassItems fuel r1).map (fun p => (true, p))
        | _ => (parseClassItems fuel r).map (fun p => (false, p))).bind
        (fun x =>
          match x with
          | (neg, (items, r2)) =>
            match r2 with
            | '+' :: r3 =>
              (parseAtoms fuel r3).map
                (fun p : List RAtom × Str => (⟨neg, items, true⟩ :: p.1, p.2))
            | _ =>
              (parseAtoms fuel r2).map
                (fun p : List RAtom × Str => (⟨neg, items, false⟩ :: p.1, p.2)))
    else if c = bslashC then
      match r with
      | [] => none
      | e :: r1 =>
        match r1 with
        | '+' :: r2 =>
          (parseAtoms fuel r2).map
            (fun p => (⟨false, [(e, e)], true⟩ :: p.1, p.2))
        | _ =>
          (parseAtoms fuel r1).map
            (fun p => (⟨false, [(e, e)], false⟩ :: p.1, p.2))
    else if unsupportedLiteral c then none
    else
      match r with
      | '+' :: r2 =>
        (parseAtoms fuel r2).map
          (fun p => (⟨false, [(c, c)], true⟩ :: p.1, p.2))
      | _ =>
        (parseAtoms fuel r).map
          (fun p => (⟨false, [(c, c)], false⟩ :: p.1, p.2))

/-- Parse one alternative. -/
def parseAlt (fuel : Nat) (s : Str) : Option (RAlt × Str) :=
  let startP : Bool × Str :=
    match s with
    | '^' :: r => (true, r)
    | _ => (false, s)
  match parseAtoms fuel startP.2 with
  | none => none
  | some (atoms, rest) =>
    if atoms = [] then none
    else
      match rest with
      | [] => some (⟨startP.1, atoms, false⟩, [])
      | d :: r2 =>
        if d = dollarC then
          match r2 with
          | [] => some (⟨startP.1, atoms, true⟩, [])
          | '|' :: r3 => some (⟨startP.1, atoms, true⟩, '|' :: r3)
          | _ => none
        else if d = '|' then some (⟨startP.1, atoms, false⟩, d :: r2)
        else none

/-- Parse a `|`-separated list of alternatives. -/
def parseAlts : Nat → Str → Option (List RAlt)
  | 0, _ => none
  | fuel + 1, s =>
    match parseAlt fuel s with
    | none => none
    | some (alt, rest) =>
      match rest with
      | [] => some [alt]
      | '|' :: r => (parseAlts fuel r).map (fun as => alt :: as)
      | _ => none

/-- Parse a whole pattern of the fragment. -/
def parseFrag (pattern : Str) : Option (List RAlt) :=
  parseAlts (pattern.length + 1) pattern

/-- Does a character match an atom?  With the `i` flag, case-folded forms
are checked too (an ASCII-level approximation of ECMAScript
canonicalization; no theorem exercises `i`). -/
def atomMatches (ic : Bool) (a : RAtom) (c : Char) : Bool :=
  let inSet : Char → Bool := fun x =>
    a.items.any (fun rg => rg.1 ≤ x && x ≤ rg.2)
  let hit := inSet c || (ic && (inSet c.toLower || inSet c.toUpper))
  if a.neg then !hit else hit

/-- Try candidate run lengths in the given order, combining with the match
length of the remaining atoms. -/
def firstSome (f : Nat → Option Nat) : List Nat → Option Nat
  | [] => none
  | k :: ks =>
    match f k with
    | some n => some n
    | none => firstSome f ks

/-- `[k, k-1, ..., 1]`. -/
def descending : Nat → List Nat
  | 0 => []
  | k + 1 => (k + 1) :: descending k

/-- Greedy backtracking match of an atom sequence against a prefix of
`rest`, with structural fuel (always called with `fuel = atoms.length`);
returns the number of characters consumed.  `dollar` requires the match to
end at the end of the input. -/
def matchAtomsF (ic : Bool) (dollar : Bool) : Nat → List RAtom → Str → Option Nat
  | _, [], rest => if dollar then (if rest = [] then some 0 else none) else some 0
  | 0, _ :: _, _ => none
  | fuel + 1, a :: as, rest =>
    if a.plus then
      firstSome
        (fun k =>
          (matchAtomsF ic dollar fuel as (rest.drop k)).map (fun n => k + n))
        (descending (rest.takeWhile (atomMatches ic a)).length)
    else
      match rest with
      | [] => none
      | c :: r =>
        if atomMatches ic a c then
          (matchAtomsF ic dollar fuel as r).map (fun n => n + 1)
        else none

/-- Greedy backtracking match of an atom sequence. -/
def matchAtoms (ic : Bool) (dollar : Bool) (atoms : List RAtom) (rest : Str) :
    Option Nat :=
  matchAtomsF ic dollar atoms.length atoms rest

/-- Try the alternatives in order (JavaScript picks the first that
matches); `atStart` says whether the current position is offset 0. -/
def matchAlts (ic : Bool) (alts : List RAlt) (atStart : Bool) (rest : Str) :
    Option Nat :=
  match alts with
  | [] => none
  | alt :: more =>
    match (if alt.caret && !atStart then none
      else matchAtoms ic alt.dollar alt.atoms rest) with
    | some n => some n
    | none => matchAlts ic more atStart rest

/-- The global-replace scan: at each position try the alternatives; on a
match emit the substituted replacement and continue after it, else copy one
character.  `done` is the original text already consumed (for `` $` `` in
replacements). -/
def globalReplaceGo (ic : Bool) (alts : List RAlt) (repl : Str) :
    Nat → Bool → Str → Str → Str
  | 0, _, _, _ => []
  | _ + 1, _, _, [] => []
  | fuel + 1, atStart, done, c :: r =>
    match matchAlts ic alts atStart (c :: r) with
    | some n =>
      getSubstitution ((c :: r).take n) done ((c :: r).drop n) repl ++
        globalReplaceGo ic alts repl fuel false (done ++ (c :: r).take n)
          ((c :: r).drop n)
    | none => c :: globalReplaceGo ic alts repl fuel false (done ++ [c]) r

/-- The first-match-only replace scan (no `g` flag). -/
def firstReplaceGo (ic : Bool) (alts : List RAlt) (repl : Str) :
    Nat → Bool → Str → Str → Str
  | 0, _, _, _ => []
  | _ + 1, _, _, [] => []
  | fuel + 1, atStart, done, c :: r =>
    match matchAlts ic alts atStart (c :: r) with
    | some n =>
      getSubstitution ((c :: r).take n) done ((c :: r).drop n) repl ++
        (c :: r).drop n
    | none => c :: firstReplaceGo ic alts repl fuel false (done ++ [c]) r

/-- JavaScript `input.replace(new RegExp(pattern, flags), repl)` for
patterns of the fragment; other patterns leave the input unchanged. -/
def jsRegexReplace (pattern flags repl input : Str) : Str :=
  match parseFrag pattern with
  | none => input
  | some alts =>
    if flags.contains 'g' then
      globalReplaceGo (flags.contains 'i') alts repl (input.length + 1) true
        [] input
    else
      firstReplaceGo (flags.contains 'i') alts repl (input.length + 1) true
        [] input

/-- The escaping of `trim` characters before they are spliced into a
character class: `.replace(/[.*+?^${}()|[\]\\]/g, '\\$&')`. -/
def regexEscape (chars : Str) : Str :=
  chars.flatMap fun c =>
    if c = '.' || c = '*' || c = '+' || c = '?' || c = '^' || c = dollarC ||
        c = lbraceC || c = rbraceC || c = '(' || c = ')' || c = '|' ||
        c = '[' || c = ']' || c = bslashC then [bslashC, c]
    else [c]

/-- One `applyTransforms` step from `src/transformer.ts` (`toLowerCase` /
`toUpperCase` are modelled at the ASCII level). -/
def applyTransform (result : Str) : Transform → Str
  | .lowercase => result.map Char.toLower
  | .uppercase => result.map Char.toUpper
  | .replace pattern replacement flags =>
    jsRegexReplace pattern flags replacement result
  | .trim chars =>
    jsRegexReplace
      ('^' :: '[' :: (regexEscape chars ++
        (']' :: '+' :: '|' :: '[' :: (regexEscape chars ++
          [']', '+', dollarC]))))
      (("g").data) [] result
  | .slugify =>
    jsRegexReplace (("^-+|-+$").data) (("g").data) []
      (jsRegexReplace (("[^a-z0-9]+").data) (("g").data) (("-").data)
        (result.map Char.toLower))

/-- `applyTransforms` from `src/transformer.ts`: thread the value through
the transforms left to right. -/
def applyTransforms (value : Str) (transforms : List Transform) : Str :=
  transforms.foldl applyTransform value

theorem jsRegexReplace_congr (p1 p2 flags repl input : Str)
    (h : parseFrag p1 = parseFrag p2) :
    jsRegexReplace p1 flags repl input = jsRegexReplace p2 flags repl input := by
  unfold jsRegexReplace
  rw [h]

/-- C8: applying the single `slugify` transform is the same function as the
chain `lowercase`, then the replace transform with pattern `[^a-z0-9]+`,
replacement `-` and flag `g`, then `trim:-`; and that chain maps
`"  My App!  "` to `"my-app"`. -/
theorem applyTransforms_slugify_spec :
    (∀ s : Str,
      applyTransforms s [.slugify] =
        applyTransforms s
          [.lowercase,
            .replace (("[^a-z0-9]+").data) (("-").data) (("g").data),
            .trim (("-").data)]) ∧
    applyTransforms (("  My App!  ").data)
        [.lowercase, .replace (("[^a-z0-9]+").data) (("-").data) (("g").data),
          .trim (("-").data)] = ("my-app").data := by
  constructor
  · intro s
    have e1 : applyTransforms s [.slugify] =
        jsRegexReplace (("^-+|-+$").data) (("g").data) []
          (jsRegexReplace (("[^a-z0-9]+").data) (("g").data) (("-").data)
            (s.map Char.toLower)) := rfl
    have e2 : applyTransforms s
        [.lowercase, .replace (("[^a-z0-9]+").data) (("-").data) (("g").data),
          .trim (("-").data)] =
        jsRegexReplace
          ('^' :: '[' :: (regexEscape (("-").data) ++
            (']' :: '+' :: '|' :: '[' :: (regexEscape (("-").data) ++
              [']', '+', dollarC]))))
          (("g").data) []
          (jsRegexReplace (("[^a-z0-9]+").data) (("g").data) (("-").data)
            (s.map Char.toLower)) := rfl
    rw [e1, e2]
    exact jsRegexReplace_congr (("^-+|-+$").data)
      ('^' :: '[' :: (regexEscape (("-").data) ++
        (']' :: '+' :: '|' :: '[' :: (regexEscape (("-").data) ++
          [']', '+', dollarC]))))
      (("g").data) []
      (jsRegexReplace (("[^a-z0-9]+").data) (("g").data) (("-").data)
        (s.map Char.toLower))
      (by decide)
  · decide

/- ------------------------------------------------------------------
src/parser.ts — the block-AST template parser
------------------------------------------------------------------ -/

/-- Characters matched by the JavaScript `.` (anything but a line
terminator). -/
def dotChar (c : Char) : Bool :=
  !(c.val = 10 || c.val = 13 || c.val = 0x2028 || c.val = 0x2029)

/-- `VARIABLE_REGEX` (`^([A-Z_][A-Z0-9_]*)=(.*)$`) applied to a trimmed
line: the name and the raw value text. -/
def variableMatch (trimmed : Str) : Option (Str × Str) :=
  match trimmed with
  | [] => none
  | c :: _ =>
    if isNameStart c then
      let name := trimmed.takeWhile isNameChar
      match trimmed.drop name.length with
      | '=' :: value => if value.all dotChar then some (name, value) else none
      | _ => none
    else none

/-- `isVariableLine` from `src/parser.ts`. -/
def isVariableLine (line : Str) : Bool :=
  (variableMatch (jsTrim line)).isSome

/-- Does `t` match `\s*---\s*$` (the text after the lazy capture of the
section-header regex)?  Deterministic: the two `\s*` cannot trade
characters with the literal `---`. -/
def sectionTailMatches (t : Str) : Bool :=
  let t1 := t.dropWhile isJsSpace
  ("---").data.isPrefixOf t1 && (t1.drop 3).all isJsSpace

/-- The lazy capture `(.+?)` of the section-header regex: the shortest
nonempty prefix whose remainder matches `\s*---\s*$`. -/
def captureLazy (acc : Str) : Str → Option Str
  | [] => none
  | c :: rest =>
    if dotChar c then
      if sectionTailMatches rest then some (acc ++ [c])
      else captureLazy (acc ++ [c]) rest
    else none

/-- Backtracking over the `\s*` between the opening `---` and the capture:
try consuming `k` whitespace characters, `k` from the maximal run down
to 0 (the capture itself may then start with whitespace). -/
def sectionBTry (afterDashes : Str) : Nat → Option Str
  | 0 => captureLazy [] afterDashes
  | k + 1 =>
    match captureLazy [] (afterDashes.drop (k + 1)) with
    | some cap => some cap
    | none => sectionBTry afterDashes k

/-- `SECTION_HEADER_REGEX` (`^#\s*---\s*(.+?)\s*---\s*$`) applied to a
trimmed line: the captured section name. -/
def sectionMatch (trimmed : Str) : Option Str :=
  match trimmed with
  | '#' :: r1 =>
    let r2 := r1.dropWhile isJsSpace
    if ("---").data.isPrefixOf r2 then
      let afterDashes := r2.drop 3
      sectionBTry afterDashes (afterDashes.takeWhile isJsSpace).length
    else none
  | _ => none

/-- `parseInt` on a digit string. -/
def digitsToNat (ds : Str) : Nat :=
  ds.foldl (fun n c => n * 10 + (c.toNat - 48)) 0

/-- `SHELL_COMMAND_REGEX` (`` ^`(.+)`$ ``): the inner command. -/
def shellMatch (trimmed : Str) : Option Str :=
  match trimmed with
  | c :: rest =>
    if c = btickC ∧ rest.getLast? = some btickC ∧ rest.length ≥ 2 ∧
        rest.dropLast.all dotChar then
      some rest.dropLast
    else none
  | [] => none

/-- `SECRET_DIRECTIVE_REGEX` (`^<secret:(\d+)(?::([^>]+))?>$`): the length
and optional charset spec. -/
def secretMatch (trimmed : Str) : Option (Nat × Option Str) :=
  if ("<secret:").data.isPrefixOf trimmed then
    let after := trimmed.drop 8
    let digits := after.takeWhile Char.isDigit
    if digits = [] then none
    else
      match after.drop digits.length with
      | ['>'] => some (digitsToNat digits, none)
      | ':' :: rest =>
        match rest.getLast? with
        | some '>' =>
          let mid := rest.dropLast
          if mid ≠ [] ∧ ¬ mid.contains '>' then
            some (digitsToNat digits, some mid)
          else none
        | _ => none
      | _ => none
  else none

/-- `OPTIONS_DIRECTIVE_REGEX` (`^<([^<>]+\|[^<>]+)>$`): the inner text,
which must contain a `|` with nonempty `<>`-free text on both sides. -/
def optionsMatch (trimmed : Str) : Option Str :=
  match trimmed with
  | '<' :: rest =>
    match rest.getLast? with
    | some '>' =>
      let mid := rest.dropLast
      if mid.contains '<' ∨ mid.contains '>' then none
      else if ((mid.drop 1).dropLast).contains '|' then some mid
      else none
    | _ => none
  | _ => none

/-- The character class of `DIRECTIVE_REGEX`. -/
def directiveClassChar (c : Char) : Bool :=
  ('a' ≤ c && c ≤ 'z') || c = ',' || c = ':' || ('A' ≤ c && c ≤ 'Z') ||
    ('0' ≤ c && c ≤ '9') || c = '_' || c = '/' || c = bslashC || c = '^' ||
    c = dollarC || c = '.' || c = '*' || c = '+' || c = '?' || c = lbraceC ||
    c = rbraceC || c = '[' || c = ']' || c = '(' || c = ')' || c = '|' ||
    c = squoteC || c = ' ' || c = '-'

/-- `DIRECTIVE_REGEX` (`^<([...]+)>$`): the inner directive string. -/
def directiveMatch (trimmed : Str) : Option Str :=
  match trimmed with
  | '<' :: rest =>
    match rest.getLast? with
    | some '>' =>
      let mid := rest.dropLast
      if mid ≠ [] ∧ mid.all directiveClassChar then some mid else none
    | _ => none
  | _ => none

/-- `findClosingSlash`: the first `/` not directly preceded by `\`
(indices relative to the argument). -/
def findClosingSlashGo (i : Nat) (prev : Option Char) : Str → Option Nat
  | [] => none
  | c :: r =>
    if c = '/' ∧ (i = 0 ∨ prev ≠ some bslashC) then some i
    else findClosingSlashGo (i + 1) (some c) r

/-- `findClosingSlash` from `src/parser.ts` (`none` for the source's -1). -/
def findClosingSlash (s : Str) : Option Nat := findClosingSlashGo 0 none s

/-- `.replace(/\\\//g, '/')`: unescape `\/` pairs. -/
def unescapeSlashes : Str → Str
  | [] => []
  | [c] => [c]
  | c :: d :: r =>
    if c = bslashC ∧ d = '/' then '/' :: unescapeSlashes r
    else c :: unescapeSlashes (d :: r)

/-- Validity of `new RegExp(pattern, flags)`: modelled as always
succeeding.  No settled claim depends on the rejection of syntactically
invalid patterns, so the compile-check in `parseRegexDirective` and
`parseReplaceTransform` never fires in this model. -/
def jsRegexValid (pattern flags : Str) : Bool := true

/-- `parseRegexDirective` from `src/parser.ts`. -/
def parseRegexDirective (regexStr : Str) : Except Str RegexDirective :=
  if ¬ ("regex:/").data.isPrefixOf regexStr then
    .error (("Invalid regex directive format").data)
  else
    let afterPrefix := regexStr.drop 7
    match findClosingSlash afterPrefix with
    | none => .error (("Invalid regex directive: missing closing /").data)
    | some patternEnd =>
      let pattern := unescapeSlashes (afterPrefix.take patternEnd)
      let remainder := afterPrefix.drop (patternEnd + 1)
      let colonIndex := remainder.findIdx? (fun c => c = ':')
      let flags := match colonIndex with
        | none => remainder
        | some i => remainder.take i
      let errorMessage := match colonIndex with
        | none => none
        | some i => some (remainder.drop (i + 1))
      match flags.find? (fun f =>
          !(f = 'i' || f = 'm' || f = 'u' || f = 's')) with
      | some f => .error (("Invalid regex flag: ").data ++ [f])
      | none =>
        if jsRegexValid pattern flags then
          .ok ⟨pattern, flags, errorMessage⟩
        else .error (("Invalid regex pattern").data)

/-- `parseReplaceTransform` from `src/parser.ts`. -/
def parseReplaceTransform (replaceStr : Str) : Except Str Transform :=
  if ¬ ("replace:/").data.isPrefixOf replaceStr then
    .error (("Invalid replace directive format").data)
  else
    let afterPrefix := replaceStr.drop 9
    match findClosingSlash afterPrefix with
    | none =>
      .error (("Invalid replace directive: missing closing / after pattern").data)
    | some patternEnd =>
      let pattern := unescapeSlashes (afterPrefix.take patternEnd)
      let afterPattern := afterPrefix.drop (patternEnd + 1)
      match findClosingSlash afterPattern with
      | none =>
        .error (("Invalid replace directive: missing closing / after replacement").data)
      | some replacementEnd =>
        let replacement := unescapeSlashes (afterPattern.take replacementEnd)
        let flags := afterPattern.drop (replacementEnd + 1)
        match flags.find? (fun f => !(f = 'g' || f = 'i')) with
        | some f => .error (("Invalid replace flag: ").data ++ [f])
        | none =>
          if jsRegexValid pattern flags then
            .ok (.replace pattern replacement flags)
          else .error (("Invalid replace pattern").data)

/-- `parseTrimTransform` from `src/parser.ts`. -/
def parseTrimTransform (trimStr : Str) : Except Str Transform :=
  if ¬ ("trim:").data.isPrefixOf trimStr then
    .error (("Invalid trim directive format").data)
  else
    let chars := trimStr.drop 5
    if chars = [] then
      .error (("Trim directive requires characters to trim").data)
    else .ok (.trim chars)

/-- `IF_DIRECTIVE_REGEX` (`^if:([A-Z_][A-Z0-9_]*)$`). -/
def ifMatch (part : Str) : Option Str :=
  if ("if:").data.isPrefixOf part then
    match part.drop 3 with
    | [] => none
    | c :: r =>
      if isNameStart c ∧ r.all isNameChar then some (c :: r) else none
  else none

/-- A bare token naming one of the six validation directives. -/
def directiveOf (part : Str) : Option DirectiveType :=
  if part = ("required").data then some .required
  else if part = ("url").data then some .url
  else if part = ("email").data then some .email
  else if part = ("port").data then some .port
  else if part = ("number").data then some .number
  else if part = ("boolean").data then some .boolean
  else none

/-- A bare token naming a simple transform. -/
def simpleTransformOf (part : Str) : Option Transform :=
  if part = ("lowercase").data then some .lowercase
  else if part = ("uppercase").data then some .uppercase
  else if part = ("slugify").data then some .slugify
  else none

/-- The result record of `parseDirectiveString`. -/
structure ParsedDirectives where
  directives : List DirectiveType := []
  condition : Option ConditionDirective := none
  regex : Option RegexDirective := none
  transforms : Option (List Transform) := none
deriving DecidableEq

/-- The scanning loop of `parseDirectiveString`, on the remaining text,
with structural fuel (every iteration consumes at least one character, so
`length + 1` fuel suffices; a fuel runout cannot occur and reports an
internal error). -/
def pdsGo (transforms : List Transform) (directives : List DirectiveType)
    (condition : Option ConditionDirective) (regex : Option RegexDirective) :
    Nat → Str → Except Str ParsedDirectives
  | 0, _ => .error (("internal: directive fuel exhausted").data)
  | fuel + 1, rest0 =>
    let rest := rest0.dropWhile (fun c => c = ',' || c = ' ')
    if rest = [] then
      .ok ⟨directives, condition, regex,
        if transforms = [] then none else some transforms⟩
    else if ("replace:/").data.isPrefixOf rest then
      let after9 := rest.drop 9
      match findClosingSlash after9 with
      | none =>
        .error (("Invalid replace directive: missing closing / after pattern").data)
      | some patternEnd =>
        let afterPat := after9.drop (patternEnd + 1)
        match findClosingSlash afterPat with
        | none =>
          .error (("Invalid replace directive: missing closing / after replacement").data)
        | some replacementEnd =>
          let afterRepl := afterPat.drop (replacementEnd + 1)
          let flagsPart := afterRepl.takeWhile (fun c => ¬ c = ',')
          let consumed :=
            9 + (patternEnd + 1) + (replacementEnd + 1) + flagsPart.length
          match parseReplaceTransform (rest.take consumed) with
          | .error e => .error e
          | .ok t =>
            pdsGo (transforms ++ [t]) directives condition regex fuel
              (rest.drop consumed)
    else if ("regex:/").data.isPrefixOf rest then
      let after7 := rest.drop 7
      match findClosingSlash after7 with
      | none => .error (("Invalid regex directive: missing closing /").data)
      | some patternEnd =>
        let base := 7 + (patternEnd + 1)
        let rem := rest.drop base
        let colonIdx := rem.findIdx? (fun c => c = ':')
        let commaIdx := rem.findIdx? (fun c => c = ',')
        let consumed :=
          match colonIdx, commaIdx with
          | some ci, some mi =>
            if ci < mi then
              match (rem.drop (ci + 1)).findIdx? (fun c => c = ',') with
              | some j => base + ci + 1 + j
              | none => rest.length
            else base + mi
          | some ci, none =>
            match (rem.drop (ci + 1)).findIdx? (fun c => c = ',') with
            | some j => base + ci + 1 + j
            | none => rest.length
          | none, some mi => base + mi
          | none, none => rest.length
        match parseRegexDirective (rest.take consumed) with
        | .error e => .error e
        | .ok rx =>
          pdsGo transforms directives condition (some rx) fuel
            (rest.drop consumed)
    else
      let partEnd :=
        match rest.findIdx? (fun c => c = ',') with
        | some i => i
        | none => rest.length
      let part := jsTrim (rest.take partEnd)
      let newRest := rest.drop partEnd
      if part = [] then
        pdsGo transforms directives condition regex fuel newRest
      else
        match ifMatch part with
        | some nm =>
          match condition with
          | some _ => .error (("Multiple if conditions not allowed").data)
          | none =>
            pdsGo transforms directives (some ⟨nm⟩) regex fuel newRest
        | none =>
          match directiveOf part with
          | some d =>
            pdsGo transforms (directives ++ [d]) condition regex fuel newRest
          | none =>
            match simpleTransformOf part with
            | some t =>
              pdsGo (transforms ++ [t]) directives condition regex fuel newRest
            | none =>
              if ("trim:").data.isPrefixOf part then
                match parseTrimTransform part with
                | .error e => .error e
                | .ok t =>
                  pdsGo (transforms ++ [t]) directives condition regex fuel
                    newRest
              else .error (("Unknown directive: ").data ++ part)

/-- `parseDirectiveString` from `src/parser.ts` (the block-AST version). -/
def parseDirectiveString (directiveStr : Str) : Except Str ParsedDirectives :=
  pdsGo [] [] none none (directiveStr.length + 1) directiveStr

/-- The result record of `parseValue`. -/
structure ParsedValue where
  default : Option DefaultValue := none
  directives : List DirectiveType := []
  condition : Option ConditionDirective := none
  regex : Option RegexDirective := none
  transforms : Option (List Transform) := none
deriving DecidableEq

/-- `parseValue` from `src/parser.ts`: dispatch on the trimmed value text —
shell, secret, options, directive expression, else static. -/
def parseValue (value : Str) : Except Str ParsedValue :=
  let trimmedValue := jsTrim value
  if trimmedValue = [] then .ok {}
  else
    match shellMatch trimmedValue with
    | some command => .ok { default := some (.shell command) }
    | none =>
      match secretMatch trimmedValue with
      | some (len, charset) => .ok { default := some (.secret len charset) }
      | none =>
        match optionsMatch trimmedValue with
        | some inner =>
          let p := parseOptions inner
          .ok { default := some (.options p.1 p.2) }
        | none =>
          match directiveMatch trimmedValue with
          | some directiveStr =>
            (parseDirectiveString directiveStr).map fun pd =>
              { directives := pd.directives, condition := pd.condition,
                regex := pd.regex, transforms := pd.transforms }
          | none => .ok { default := some (.static trimmedValue) }

/-- The description text of one pending comment line:
`l.trim().replace(/^#\s?/, '')`. -/
def stripCommentMark (l : Str) : Str :=
  match jsTrim l with
  | '#' :: c :: r => if isJsSpace c then r else c :: r
  | '#' :: [] => []
  | t => t

/-- `parseVariableLine` from `src/parser.ts` (the `if (description)` guard
drops an empty description). -/
def parseVariableLine (line : Str) (description : Option Str)
    (sect : Option Str) (lineNumber : Nat) : Except Str EnvVariable :=
  match variableMatch (jsTrim line) with
  | none => .error (("Invalid variable line: ").data ++ line)
  | some (name, rawValue) =>
    (parseValue rawValue).map fun pv =>
      { name := name, lineNumber := lineNumber,
        description :=
          match description with
          | some d => if d = [] then none else some d
          | none => none,
        default := pv.default, directives := pv.directives,
        condition := pv.condition, regex := pv.regex,
        transforms := pv.transforms, sectionName := sect }

/-- The per-block line loop of `flushBlock`: accumulate pending description
lines, emit `Content`/`Section`/`Variable` nodes, track the current
section. -/
def blockGo (pending : List Str) (sect : Option Str) (lineNo : Nat) :
    List Str → Except Str (List TemplateNode × Option Str)
  | [] => .ok ((if pending = [] then [] else [.content pending]), sect)
  | line :: rest =>
    match sectionMatch (jsTrim line) with
    | some name =>
      match blockGo [] (some name) (lineNo + 1) rest with
      | .error e => .error e
      | .ok p =>
        .ok ((if pending = [] then [] else [.content pending]) ++
          (.sect name line) :: p.1, p.2)
    | none =>
      if isVariableLine line then
        match parseVariableLine line
            (if pending = [] then none
             else some (joinChar nlC (pending.map stripCommentMark)))
            sect lineNo with
        | .error e => .error e
        | .ok v =>
          match blockGo [] sect (lineNo + 1) rest with
          | .error e => .error e
          | .ok p => .ok (.var (pending ++ [line]) v :: p.1, p.2)
      else blockGo (pending ++ [line]) sect (lineNo + 1) rest

/-- The mutable state of `parse`'s main loop. -/
structure PState where
  nodes : List TemplateNode
  currentBlock : List Str
  blockStartLine : Nat
  blankCount : Nat
  currentSection : Option Str

/-- `flushWhitespace` from `src/parser.ts`. -/
def flushWhitespacePure (st : PState) : PState :=
  if st.blankCount > 0 then
    { st with
        nodes := st.nodes ++ [.whitespace st.blankCount],
        blankCount := 0 }
  else st

/-- `flushBlock` from `src/parser.ts`: flush pending whitespace first, then
process the block's lines (note the whitespace flush happens even when the
block is empty). -/
def flushBlockE (st : PState) : Except Str PState :=
  if (flushWhitespacePure st).currentBlock = [] then .ok (flushWhitespacePure st)
  else
    match blockGo [] (flushWhitespacePure st).currentSection
        (flushWhitespacePure st).blockStartLine
        (flushWhitespacePure st).currentBlock with
    | .error e => .error e
    | .ok p =>
      .ok { flushWhitespacePure st with
              nodes := (flushWhitespacePure st).nodes ++ p.1,
              currentBlock := [],
              currentSection := p.2 }

/-- The non-blank-line step of `parse`'s loop (applied after the whitespace
flush): record the block's start line if the block is empty, then append
the line to the current block. -/
def addLineToBlock (st1 : PState) (i : Nat) (line : Str) : PState :=
  if st1.currentBlock = [] then
    { st1 with
        blockStartLine := i + 1,
        currentBlock := st1.currentBlock ++ [line] }
  else { st1 with currentBlock := st1.currentBlock ++ [line] }

/-- The main line loop of `parse`. -/
def parseGo : List Str → Nat → PState → Except Str (List TemplateNode)
  | [], _, st =>
    match flushBlockE st with
    | .error e => .error e
    | .ok st1 => .ok st1.nodes
  | line :: rest, i, st =>
    if jsTrim line = [] then
      match flushBlockE st with
      | .error e => .error e
      | .ok st1 =>
        parseGo rest (i + 1) { st1 with blankCount := st1.blankCount + 1 }
    else parseGo rest (i + 1) (addLineToBlock (flushWhitespacePure st) i line)

/-- `parse` from `src/parser.ts`. -/
def parse (content : Str) : Except Str ParsedTemplate :=
  match parseGo (splitOnChar nlC content) 0 ⟨[], [], 1, 0, none⟩ with
  | .error e => .error e
  | .ok nodes => .ok ⟨nodes⟩

/- ------------------------------------------------------------------
src/writer.ts — generate
------------------------------------------------------------------ -/

/-- The output lines of one node in `generate`. -/
def renderNode (values : JsMap Str) : TemplateNode → List Str
  | .whitespace n => List.replicate n []
  | .sect _ line => [line]
  | .content lines => lines
  | .var lines v =>
    lines.dropLast ++ [v.name ++ '=' :: escapeValue (mapGetD values v.name [])]

/-- The output lines of a node list. -/
def renderNodes (values : JsMap Str) (nodes : List TemplateNode) : List Str :=
  nodes.flatMap (renderNode values)

/-- `generate` from `src/writer.ts`: render every node, appending the
"Extra" section when extra variables are present, and join with newlines. -/
def generate (template : ParsedTemplate) (values : JsMap Str)
    (extraVariables : List (Str × Str)) : Str :=
  joinChar nlC
    (if extraVariables = [] then renderNodes values template.nodes
     else
       renderNodes values template.nodes ++
         [[], ("# --- Extra (not in template) ---").data] ++
         extraVariables.map (fun p => p.1 ++ '=' :: escapeValue p.2))

/-- The counts of the whitespace nodes of a template, in order. -/
def whitespaceCounts (t : ParsedTemplate) : List Nat :=
  t.nodes.filterMap fun n =>
    match n with
    | .whitespace k => some k
    | _ => none

deriving instance DecidableEq for Except

/-- C2 (failing input): on `"A=1\n\n\nB=2"`, whose two blank lines form one
maximal run, `parse` produces two `Whitespace(1)` nodes — one per blank
line after the first flush — rather than the single `Whitespace(2)` node
the claim (and the `count` field's own documentation) describe.
Regeneration is unaffected, which is why the slip is invisible to the
round-trip tests. -/
theorem parse_whitespace_run_bug :
    parse (("A=1\n\n\nB=2").data) =
      .ok ⟨[.var [("A=1").data]
          { name := ("A").data, lineNumber := 1,
            default := some (.static (("1").data)) },
        .whitespace 1, .whitespace 1,
        .var [("B=2").data]
          { name := ("B").data, lineNumber := 4,
            default := some (.static (("2").data)) }]⟩ ∧
    (parse (("A=1\n\n\nB=2").data)).map whitespaceCounts = .ok [1, 1] ∧
    (parse (("A=1\n\n\nB=2").data)).map whitespaceCounts ≠ .ok [2] := by
  refine ⟨by decide, by decide, by decide⟩

/- ------------------------------------------------------------------
C1 — round-trip: generate after parse, line by line
------------------------------------------------------------------ -/

/-- What one input line becomes in the regenerated output: a blank line
becomes the empty line, a variable line is replaced in full by
`NAME=<escaped looked-up value>` (any indentation is lost), and every
other line is reproduced verbatim. -/
def renderLine (values : JsMap Str) (line : Str) : Str :=
  if jsTrim line = [] then []
  else
    match variableMatch (jsTrim line) with
    | some (name, _) => name ++ '=' :: escapeValue (mapGetD values name [])
    | none => line

/-- Is this default absent or static? -/
def staticOrNoneB : Option DefaultValue → Bool
  | none => true
  | some (.static _) => true
  | some _ => false

/-- The resolved value of a static-or-absent default. -/
def staticResolve : Option DefaultValue → Str
  | some (.static v) => v
  | _ => []

/-- One variable line in the claim's setting: its value text parses, its
default is static (or absent), and the values map sends its name to the
resolved static default. -/
def lineVariableOk (values : JsMap Str) (name raw : Str) : Bool :=
  match parseValue raw with
  | .error _ => false
  | .ok pv =>
    staticOrNoneB pv.default &&
      (mapGetD values name [] == staticResolve pv.default)

/-- The claim's hypothesis, per input line: non-variable lines are
unrestricted; variable lines satisfy `lineVariableOk`. -/
def staticOnlyLineB (values : JsMap Str) (line : Str) : Bool :=
  match variableMatch (jsTrim line) with
  | none => true
  | some (name, raw) => lineVariableOk values name raw

theorem renderNodes_nil (values : JsMap Str) : renderNodes values [] = [] := rfl

theorem renderNodes_cons (values : JsMap Str) (n : TemplateNode)
    (ns : List TemplateNode) :
    renderNodes values (n :: ns) = renderNode values n ++ renderNodes values ns := by
  simp [renderNodes]

theorem renderNodes_append (values : JsMap Str) (a b : List TemplateNode) :
    renderNodes values (a ++ b) =
      renderNodes values a ++ renderNodes values b := by
  simp [renderNodes]

theorem renderLine_blank (values : JsMap Str) (line : Str)
    (h : jsTrim line = []) : renderLine values line = [] := by
  simp [renderLine, h]

theorem renderLine_other (values : JsMap Str) (line : Str)
    (h : jsTrim line ≠ []) (hv : variableMatch (jsTrim line) = none) :
    renderLine values line = line := by
  simp [renderLine, h, hv]

theorem renderLine_var (values : JsMap Str) (line name raw : Str)
    (h : jsTrim line ≠ []) (hv : variableMatch (jsTrim line) = some (name, raw)) :
    renderLine values line =
      name ++ '=' :: escapeValue (mapGetD values name []) := by
  simp [renderLine, h, hv]

theorem sectionMatch_head (t : Str) (n : Str) (h : sectionMatch t = some n) :
    ∃ r, t = '#' :: r := by
  unfold sectionMatch at h
  split at h
  · next r1 => exact ⟨r1, rfl⟩
  · exact Option.noConfusion h

theorem variableMatch_hash (r : Str) : variableMatch ('#' :: r) = none := by
  have hns : isNameStart '#' = false := by decide
  simp [variableMatch, hns]

theorem sectionMatch_not_variable (t : Str) (n : Str)
    (h : sectionMatch t = some n) : variableMatch t = none := by
  obtain ⟨r, hr⟩ := sectionMatch_head t n h
  rw [hr]
  exact variableMatch_hash r

theorem staticOnlyLineB_var (values : JsMap Str) (line name raw : Str)
    (hv : variableMatch (jsTrim line) = some (name, raw)) :
    staticOnlyLineB values line = lineVariableOk values name raw := by
  unfold staticOnlyLineB
  rw [hv]

theorem lineVariableOk_parse (values : JsMap Str) (name raw : Str)
    (h : lineVariableOk values name raw = true) :
    ∃ pv, parseValue raw = .ok pv := by
  match hpv : parseValue raw with
  | .error e =>
    unfold lineVariableOk at h
    rw [hpv] at h
    exact Bool.noConfusion h
  | .ok pv => exact ⟨pv, rfl⟩

theorem parseVariableLine_ok (line : Str) (desc : Option Str)
    (sect : Option Str) (lineNo : Nat) (name raw : Str) (pv : ParsedValue)
    (hv : variableMatch (jsTrim line) = some (name, raw))
    (hpv : parseValue raw = .ok pv) :
    ∃ v, parseVariableLine line desc sect lineNo = .ok v ∧ v.name = name := by
  have h1 : parseVariableLine line desc sect lineNo =
      (parseValue raw).map (fun pv =>
        { name := name, lineNumber := lineNo,
          description :=
            match desc with
            | some d => if d = [] then none else some d
            | none => none,
          default := pv.default, directives := pv.directives,
          condition := pv.condition, regex := pv.regex,
          transforms := pv.transforms, sectionName := sect }) := by
    conv_lhs => rw [parseVariableLine.eq_def, hv]
  rw [h1, hpv]
  exact ⟨_, rfl, rfl⟩

theorem blockGo_cons_sect (pending : List Str) (sect : Option Str)
    (lineNo : Nat) (line : Str) (rest : List Str) (name : Str)
    (hsec : sectionMatch (jsTrim line) = some name) :
    blockGo pending sect lineNo (line :: rest) =
      match blockGo [] (some name) (lineNo + 1) rest with
      | .error e => .error e
      | .ok p =>
        .ok ((if pending = [] then [] else [.content pending]) ++
          (.sect name line) :: p.1, p.2) := by
  conv_lhs => rw [blockGo, hsec]

theorem blockGo_cons_var (pending : List Str) (sect : Option Str)
    (lineNo : Nat) (line : Str) (rest : List Str)
    (hsec : sectionMatch (jsTrim line) = none)
    (hvar : isVariableLine line = true) :
    blockGo pending sect lineNo (line :: rest) =
      match parseVariableLine line
          (if pending = [] then none
           else some (joinChar nlC (pending.map stripCommentMark)))
          sect lineNo with
      | .error e => .error e
      | .ok v =>
        match blockGo [] sect (lineNo + 1) rest with
        | .error e => .error e
        | .ok p => .ok (.var (pending ++ [line]) v :: p.1, p.2) := by
  conv_lhs => rw [blockGo, hsec, if_pos hvar]

theorem blockGo_cons_other (pending : List Str) (sect : Option Str)
    (lineNo : Nat) (line : Str) (rest : List Str)
    (hsec : sectionMatch (jsTrim line) = none)
    (hvar : isVariableLine line = false) :
    blockGo pending sect lineNo (line :: rest) =
      blockGo (pending ++ [line]) sect (lineNo + 1) rest := by
  have hnvar : ¬ isVariableLine line = true := by simp [hvar]
  conv_lhs => rw [blockGo, hsec, if_neg hnvar]

theorem blockGo_render (values : JsMap Str) (block : List Str) :
    ∀ (pending : List Str) (sect : Option Str) (lineNo : Nat),
    (∀ l ∈ block, jsTrim l ≠ []) →
    (∀ l ∈ block, staticOnlyLineB values l = true) →
    ∃ out sect2, blockGo pending sect lineNo block = .ok (out, sect2) ∧
      renderNodes values out = pending ++ block.map (renderLine values) := by
  induction block with
  | nil =>
    intro pending sect lineNo _ _
    refine ⟨(if pending = [] then [] else [.content pending]), sect, rfl, ?_⟩
    by_cases hp : pending = []
    · simp [hp, renderNodes]
    · simp [hp, renderNodes, renderNode]
  | cons line rest ih =>
    intro pending sect lineNo hnb hso
    have hnbl : jsTrim line ≠ [] := hnb line (by simp)
    have hnbr : ∀ l ∈ rest, jsTrim l ≠ [] := fun l hl => hnb l (by simp [hl])
    have hsor : ∀ l ∈ rest, staticOnlyLineB values l = true :=
      fun l hl => hso l (by simp [hl])
    cases hsec : sectionMatch (jsTrim line) with
    | some name =>
      obtain ⟨out, sect2, hok, hrender⟩ := ih [] (some name) (lineNo + 1) hnbr hsor
      refine ⟨(if pending = [] then [] else [.content pending]) ++
        (.sect name line) :: out, sect2, ?_, ?_⟩
      · rw [blockGo_cons_sect pending sect lineNo line rest name hsec, hok]
      · have hline : renderLine values line = line :=
          renderLine_other values line hnbl (sectionMatch_not_variable _ _ hsec)
        by_cases hp : pending = []
        · simp [hp, renderNodes_append, renderNodes_cons, renderNode, hrender, hline]
        · simp [hp, renderNodes_append, renderNodes_cons, renderNode, hrender, hline]
    | none =>
      by_cases hvar : isVariableLine line = true
      · obtain ⟨p, hv⟩ := Option.isSome_iff_exists.mp hvar
        obtain ⟨name, raw⟩ := p
        have hs := hso line (by simp)
        rw [staticOnlyLineB_var values line name raw hv] at hs
        obtain ⟨pv, hpv⟩ := lineVariableOk_parse values name raw hs
        obtain ⟨v, hokv, hname⟩ := parseVariableLine_ok line
          (if pending = [] then none
           else some (joinChar nlC (pending.map stripCommentMark)))
          sect lineNo name raw pv hv hpv
        obtain ⟨out, sect2, hok, hrender⟩ := ih [] sect (lineNo + 1) hnbr hsor
        refine ⟨.var (pending ++ [line]) v :: out, sect2, ?_, ?_⟩
        · rw [blockGo_cons_var pending sect lineNo line rest hsec hvar, hokv, hok]
        · have hline := renderLine_var values line name raw hnbl hv
          simp [renderNodes_cons, renderNode, hrender, hline, hname,
            List.dropLast_concat]
      · have hvarf : isVariableLine line = false := by
          revert hvar
          cases isVariableLine line <;> simp
        have hvm : variableMatch (jsTrim line) = none := by
          cases h2 : variableMatch (jsTrim line) with
          | none => rfl
          | some p =>
            exfalso
            have h3 : isVariableLine line = true := by
              unfold isVariableLine
              rw [h2]
              rfl
            rw [h3] at hvarf
            exact Bool.noConfusion hvarf
        obtain ⟨out, sect2, hok, hrender⟩ :=
          ih (pending ++ [line]) sect (lineNo + 1) hnbr hsor
        refine ⟨out, sect2, ?_, ?_⟩
        · rw [blockGo_cons_other pending sect lineNo line rest hsec hvarf]
          exact hok
        · rw [hrender]
          have hline := renderLine_other values line hnbl hvm
          simp [hline]

theorem flushWhitespacePure_mk (nodes : List TemplateNode) (block : List Str)
    (bs bc : Nat) (cs : Option Str) :
    flushWhitespacePure ⟨nodes, block, bs, bc, cs⟩ =
      ⟨nodes ++ (if bc > 0 then [.whitespace bc] else []), block, bs, 0, cs⟩ := by
  unfold flushWhitespacePure
  by_cases h : bc > 0
  · rw [if_pos h, if_pos h]
  · rw [if_neg h, if_neg h]
    have h0 : bc = 0 := by omega
    subst h0
    simp

theorem renderNodes_flush (values : JsMap Str) (nodes : List TemplateNode)
    (bc : Nat) :
    renderNodes values (nodes ++ (if bc > 0 then [.whitespace bc] else [])) =
      renderNodes values nodes ++ List.replicate bc [] := by
  by_cases h : bc > 0
  · rw [if_pos h]
    simp [renderNodes_append, renderNodes, renderNode]
  · rw [if_neg h]
    have h0 : bc = 0 := by omega
    subst h0
    simp

theorem addLineToBlock_mk (nodes : List TemplateNode) (block : List Str)
    (bs bc : Nat) (cs : Option Str) (i : Nat) (line : Str) :
    addLineToBlock ⟨nodes, block, bs, bc, cs⟩ i line =
      ⟨nodes, block ++ [line], (if block = [] then i + 1 else bs), bc, cs⟩ := by
  unfold addLineToBlock
  by_cases h : block = []
  · rw [if_pos h, if_pos h]
  · rw [if_neg h, if_neg h]

theorem flushBlockE_render (values : JsMap Str) (nodes : List TemplateNode)
    (block : List Str) (bs bc : Nat) (cs : Option Str)
    (hnb : ∀ l ∈ block, jsTrim l ≠ [])
    (hso : ∀ l ∈ block, staticOnlyLineB values l = true) :
    ∃ nodes2 cs2, flushBlockE ⟨nodes, block, bs, bc, cs⟩ =
        .ok ⟨nodes2, [], bs, 0, cs2⟩ ∧
      renderNodes values nodes2 =
        renderNodes values nodes ++ List.replicate bc [] ++
          block.map (renderLine values) := by
  by_cases hb : block = []
  · subst hb
    refine ⟨nodes ++ (if bc > 0 then [.whitespace bc] else []), cs, ?_, ?_⟩
    · unfold flushBlockE
      rw [flushWhitespacePure_mk]
      rfl
    · rw [renderNodes_flush]
      simp
  · obtain ⟨out, sect2, hok, hrender⟩ :=
      blockGo_render values block [] cs bs hnb hso
    refine ⟨(nodes ++ (if bc > 0 then [.whitespace bc] else [])) ++ out,
      sect2, ?_, ?_⟩
    · unfold flushBlockE
      rw [flushWhitespacePure_mk]
      rw [if_neg hb, hok]
    · rw [renderNodes_append, renderNodes_flush, hrender]
      simp

theorem parseGo_render (values : JsMap Str) (lines : List Str) :
    ∀ (i : Nat) (nodes : List TemplateNode) (block : List Str) (bs bc : Nat)
      (cs : Option Str),
    (∀ l ∈ lines, staticOnlyLineB values l = true) →
    (∀ l ∈ block, jsTrim l ≠ []) →
    (∀ l ∈ block, staticOnlyLineB values l = true) →
    ∃ ns, parseGo lines i ⟨nodes, block, bs, bc, cs⟩ = .ok ns ∧
      renderNodes values ns =
        renderNodes values nodes ++ List.replicate bc [] ++
          block.map (renderLine values) ++ lines.map (renderLine values) := by
  induction lines with
  | nil =>
    intro i nodes block bs bc cs _ hnb hso
    obtain ⟨nodes2, cs2, hok, hrender⟩ :=
      flushBlockE_render values nodes block bs bc cs hnb hso
    refine ⟨nodes2, ?_, ?_⟩
    · conv_lhs => rw [parseGo]
      rw [hok]
    · rw [hrender]
      simp
  | cons line rest ih =>
    intro i nodes block bs bc cs hlines hnb hso
    have hll : staticOnlyLineB values line = true := hlines line (by simp)
    have hlr : ∀ l ∈ rest, staticOnlyLineB values l = true :=
      fun l hl => hlines l (by simp [hl])
    by_cases hblank : jsTrim line = []
    · obtain ⟨nodes2, cs2, hok1, hr1⟩ :=
        flushBlockE_render values nodes block bs bc cs hnb hso
      obtain ⟨ns, hok2, hr2⟩ := ih (i + 1) nodes2 [] bs 1 cs2 hlr
        (by intro l hl; exact absurd hl (List.not_mem_nil l))
        (by intro l hl; exact absurd hl (List.not_mem_nil l))
      refine ⟨ns, ?_, ?_⟩
      · conv_lhs => rw [parseGo]
        rw [if_pos hblank, hok1]
        exact hok2
      · rw [hr2, hr1]
        have hline := renderLine_blank values line hblank
        simp [hline, List.replicate_succ]
    · obtain ⟨ns, hok2, hr2⟩ := ih (i + 1)
        (nodes ++ (if bc > 0 then [.whitespace bc] else []))
        (block ++ [line]) (if block = [] then i + 1 else bs) 0 cs hlr
        (by
          intro l hl
          rcases List.mem_append.mp hl with h1 | h1
          · exact hnb l h1
          · rw [List.mem_singleton] at h1
            subst h1
            exact hblank)
        (by
          intro l hl
          rcases List.mem_append.mp hl with h1 | h1
          · exact hso l h1
          · rw [List.mem_singleton] at h1
            subst h1
            exact hll)
      refine ⟨ns, ?_, ?_⟩
      · conv_lhs => rw [parseGo]
        rw [if_neg hblank, flushWhitespacePure_mk, addLineToBlock_mk]
        exact hok2
      · rw [hr2, renderNodes_flush]
        simp

/-- C1 (amended): on a template whose variable lines all carry static (or
absent) defaults, with the values map sending each variable name to its
resolved static default, regeneration after parsing rewrites the input
line by line: blank lines become empty lines (so blank-line counts are
unchanged), each variable line is replaced in full by
`NAME=<re-escaped resolved value>` — losing any indentation the line had —
and every other line is reproduced verbatim. -/
theorem parse_generate_roundtrip (content : Str) (values : JsMap Str)
    (h : ∀ l ∈ splitOnChar nlC content, staticOnlyLineB values l = true) :
    (parse content).map (fun t => generate t values []) =
      .ok (joinChar nlC ((splitOnChar nlC content).map (renderLine values))) := by
  obtain ⟨ns, hok, hrender⟩ :=
    parseGo_render values (splitOnChar nlC content) 0 [] [] 1 0 none h
      (by intro l hl; exact absurd hl (List.not_mem_nil l))
      (by intro l hl; exact absurd hl (List.not_mem_nil l))
  unfold parse
  rw [hok]
  show Except.ok (generate ⟨ns⟩ values []) = _
  unfold generate
  rw [if_pos rfl]
  show Except.ok (joinChar nlC (renderNodes values ns)) = _
  rw [hrender]
  simp [renderNodes]

/-- C1 (counterexample to the claim as stated): the indented variable line
`"  PORT=x"` round-trips to `"PORT=x"` — the whole line is rebuilt as
`NAME=value`, so the claimed "reproduces text exactly except the value
portion" fails; re-escaping is not the cause, since `escapeValue` leaves
`"x"` unchanged. -/
theorem parse_generate_counterexample :
    (parse (("  PORT=x").data)).map
        (fun t => generate t [((("PORT").data), ("x").data)] []) =
      .ok (("PORT=x").data) ∧
    (("PORT=x").data : Str) ≠ ("  PORT=x").data ∧
    escapeValue (("x").data) = ("x").data := by
  refine ⟨by decide, by decide, by decide⟩

def rtContent : Str :=
  ("# --- Server ---\n\n# The port to listen on\nPORT=8080\nHOST=\nplain text").data

def rtValues : JsMap Str :=
  [((("PORT").data), ("8080").data), ((("HOST").data), [])]

/-- C1 witness: the amended round-trip theorem applied to a concrete
template with a section header, a blank line, a described variable, a
variable with an empty default, and a plain content line. -/
theorem parse_generate_roundtrip_witness :
    (∀ l ∈ splitOnChar nlC rtContent, staticOnlyLineB rtValues l = true) ∧
    (parse rtContent).map (fun t => generate t rtValues []) =
      .ok (joinChar nlC ((splitOnChar nlC rtContent).map (renderLine rtValues))) :=
  ⟨by decide, parse_generate_roundtrip rtContent rtValues (by decide)⟩

/- ------------------------------------------------------------------
src/merger.ts — mergeTemplates
------------------------------------------------------------------ -/

/-- `TemplateInput` from `src/merger.ts`. -/
structure TemplateInput where
  template : ParsedTemplate
  filename : Str
deriving DecidableEq

/-- `createFileSection` from `src/merger.ts`. -/
def createFileSection (filename : Str) : TemplateNode :=
  .sect filename (("# --- ").data ++ filename ++ (" ---").data)

/-- Assignment `a[i] = v` on a JavaScript array: in range it overwrites;
past the end it extends the array with holes (modelled as `none`) up to
index `i`. -/
def jsArraySet (a : List (Option TemplateNode)) (i : Nat) (v : TemplateNode) :
    List (Option TemplateNode) :=
  if i < a.length then a.set i (some v)
  else a ++ List.replicate (i - a.length) none ++ [some v]

/-- Phase 1's index loop: record each variable node's array index, later
occurrences of a name overwriting earlier ones. -/
def buildIndexGo (idx : JsMap Nat) (i : Nat) : List TemplateNode → JsMap Nat
  | [] => idx
  | .var _ v :: rest => buildIndexGo (mapSet idx v.name i) (i + 1) rest
  | _ :: rest => buildIndexGo idx (i + 1) rest

/-- The inner loop of phase 2, over one override file's nodes: replace
indexed names in place (`nodes[existingIndex] = node` — a JavaScript
assignment that can land past the array's end), stage new names in
`pendingNodes` under the predicted index
`nodes.length + 3 + pendingNodes.length`, and drop every non-variable
node. -/
def overrideGo :
    List TemplateNode → List (Option TemplateNode) → JsMap Nat →
      List TemplateNode →
      List (Option TemplateNode) × JsMap Nat × List TemplateNode
  | [], nodes, idx, pending => (nodes, idx, pending)
  | n :: rest, nodes, idx, pending =>
    match n with
    | .var lines v =>
      match mapGet idx v.name with
      | some existingIndex =>
        overrideGo rest (jsArraySet nodes existingIndex (.var lines v)) idx
          pending
      | none =>
        overrideGo rest nodes
          (mapSet idx v.name (nodes.length + 3 + pending.length))
          (pending ++ [.var lines v])
    | _ => overrideGo rest nodes idx pending

/-- One iteration of phase 2's outer loop: process the override's nodes,
then append `[Whitespace 1, Section filename, Whitespace 1]` followed by
the pending new variables, when there are any. -/
def applyOverride (acc : List (Option TemplateNode) × JsMap Nat)
    (input : TemplateInput) : List (Option TemplateNode) × JsMap Nat :=
  match overrideGo input.template.nodes acc.1 acc.2 [] with
  | (nodes2, idx2, pending) =>
    if pending = [] then (nodes2, idx2)
    else
      (nodes2 ++
        (some (.whitespace 1) :: some (createFileSection input.filename) ::
          some (.whitespace 1) :: pending.map some), idx2)

/-- `mergeTemplates` from `src/merger.ts`, over JavaScript arrays with
holes (`none`): no input gives the empty template, a single input is
returned as-is, and otherwise the base is prefixed with its file section
and a whitespace node, indexed, and the overrides are folded in. -/
def mergeTemplates (inputs : List TemplateInput) : List (Option TemplateNode) :=
  match inputs with
  | [] => []
  | [first] => first.template.nodes.map some
  | first :: rest =>
    (rest.foldl applyOverride
      ((createFileSection first.filename :: .whitespace 1 ::
          first.template.nodes).map some,
        buildIndexGo [] 0
          (createFileSection first.filename :: .whitespace 1 ::
            first.template.nodes))).1

def c3X1 : TemplateNode :=
  .var [("X=1").data]
    { name := ("X").data, lineNumber := 1,
      default := some (.static (("1").data)) }

def c3X2 : TemplateNode :=
  .var [("X=2").data]
    { name := ("X").data, lineNumber := 2,
      default := some (.static (("2").data)) }

def c3Inputs : List TemplateInput :=
  [⟨⟨[]⟩, ("base.env").data⟩, ⟨⟨[c3X1, c3X2]⟩, ("override.env").data⟩]

/-- What C3 describes for `c3Inputs`: `X` is new, so it is appended once
under the override's file section, and of its two occurrences the last
one wins. -/
def c3Claimed : List (Option TemplateNode) :=
  [some (createFileSection (("base.env").data)), some (.whitespace 1),
   some (.whitespace 1), some (createFileSection (("override.env").data)),
   some (.whitespace 1), some c3X2]

/-- C3 (failing input): merging an empty base with one override that binds
the new name `X` twice. The first occurrence is staged with predicted
index `nodes.length + 3 + 0 = 5`; the second occurrence finds that stale
index and the assignment `nodes[5] = node` lands past the array's end
(length 2), punching three holes; the later `push` then places the staged
first occurrence after the file section. The merged array therefore
contains holes (`none`), the node under the new section is the FIRST
occurrence, and the second occurrence sits before its own section header —
not the claimed single, last-occurrence node. -/
theorem mergeTemplates_duplicate_new_bug :
    mergeTemplates c3Inputs =
      [some (createFileSection (("base.env").data)), some (.whitespace 1),
       none, none, none, some c3X2,
       some (.whitespace 1), some (createFileSection (("override.env").data)),
       some (.whitespace 1), some c3X1] ∧
    none ∈ mergeTemplates c3Inputs ∧
    mergeTemplates c3Inputs ≠ c3Claimed := by
  refine ⟨by decide, by decide, by decide⟩

end Envfill
